import Mathlib

/-!
Verification of the LivePulse rate-limiting engine (`src/core/rate_limit.py`).

Modelling conventions:
* Python `float` time values and token counts are modelled as `ℚ` (exact
  arithmetic; the algorithms are specified in real-number terms).
* `time.time()` and `time.monotonic()` both advance at one second per second;
  the model uses a single clock value `now : ℚ` passed explicitly to every
  operation that reads a clock in the source.
* The store's string keys are built by f-string concatenation
  (`f"{key}:fw:{slot}"`, `f"{key}:swl"`, `f"{key}:tb"`, `f"{key}:lb"`); the
  four shapes are mutually non-overlapping (an integer slot rendering contains
  no `:`), so they are modelled as a structured key type `StoreKey`.
* Mutation is modelled by explicit state passing: every operation returns the
  updated `Store` next to its result; `raise` is modelled with `Except`.
-/

namespace LivePulse

/-- Python `int(x)` truncates toward zero; used for `int(now / window)` and
`int(elapsed * rate)` in the source. -/
def ratTrunc (q : ℚ) : ℤ :=
  q.num.tdiv q.den

/-- On nonnegative rationals, Python truncation agrees with the floor. -/
theorem ratTrunc_eq_floor {q : ℚ} (h : 0 ≤ q) : ratTrunc q = ⌊q⌋ := by
  rw [ratTrunc, Rat.floor_def, Int.tdiv_eq_ediv (Rat.num_nonneg.mpr h) (by positivity)]

/-- Structured model of the store-key strings built by the strategies:
`fw key slot` stands for `f"{key}:fw:{slot}"`, `swl key` for `f"{key}:swl"`,
`tb key` for `f"{key}:tb"`, `lb key` for `f"{key}:lb"`. -/
inductive StoreKey where
  | fw (key : String) (slot : ℤ)
  | swl (key : String)
  | tb (key : String)
  | lb (key : String)
deriving DecidableEq

/-- Values stored in `InMemoryStore._data`: fixed-window counters (`int`),
sliding-window timestamp deques (`log`), `_BucketState` records (`bucket`)
and `_LeakyState` records (`leaky`). -/
inductive Value where
  | int (n : ℤ)
  | log (l : List ℚ)
  | bucket (tokens : ℚ) (last_refill : ℚ)
  | leaky (queue_size : ℤ) (last_leak : ℚ)
deriving DecidableEq

/-- Pointwise update of a key-indexed map. -/
def setFn (f : StoreKey → Option α) (k : StoreKey) (v : Option α) : StoreKey → Option α :=
  fun k' => if k' = k then v else f k'

/-- `InMemoryStore`: `_data` and `_ttl` (absolute expiry instants on the
monotonic clock). -/
structure Store where
  data : StoreKey → Option Value
  ttl : StoreKey → Option ℚ

/-- A store with no keys (a freshly constructed `InMemoryStore`). -/
def Store.empty : Store :=
  ⟨fun _ => none, fun _ => none⟩

/-- `InMemoryStore._is_expired`: true when a TTL exists and lies strictly in
the past (`time.monotonic() > expiry`). -/
def Store.isExpired (s : Store) (now : ℚ) (k : StoreKey) : Bool :=
  match s.ttl k with
  | some e => decide (e < now)
  | none => false

/-- `InMemoryStore._evict`: drop the key from both maps. -/
def Store.evict (s : Store) (k : StoreKey) : Store :=
  ⟨setFn s.data k none, setFn s.ttl k none⟩

/-- `InMemoryStore.get`: lazily evicts an expired key and reports it absent. -/
def Store.get (s : Store) (now : ℚ) (k : StoreKey) : Option Value × Store :=
  if s.isExpired now k then (none, s.evict k) else (s.data k, s)

/-- `InMemoryStore.set`: writes the value; a provided TTL is stored as the
absolute instant `now + ttl`, and `ttl=None` leaves any existing expiry
untouched. -/
def Store.set (s : Store) (k : StoreKey) (v : Value) (ttl : Option ℚ) (now : ℚ) : Store :=
  { data := setFn s.data k (some v)
    ttl := match ttl with
      | some t => setFn s.ttl k (some (now + t))
      | none => s.ttl }

/-- `InMemoryStore.delete`. -/
def Store.delete (s : Store) (k : StoreKey) : Store :=
  s.evict k

/-- `InMemoryStore.incr`: evict if expired, add one to the stored counter
(absent counts as `0`; the source only ever calls this on keys holding
integer counters), and pass the TTL to `set` only when the new count is `1`. -/
def Store.incr (s : Store) (now : ℚ) (k : StoreKey) (ttl : Option ℚ) : ℤ × Store :=
  let s1 := if s.isExpired now k then s.evict k else s
  let count := (match s1.data k with | some (.int n) => n | _ => 0) + 1
  (count, s1.set k (.int count) (if count = 1 then ttl else none) now)

/-- `RateLimitResult`. -/
structure RateLimitResult where
  allowed : Bool
  key : String
  remaining : ℤ
  limit : ℤ
  reset_at : ℚ
  retry_after : ℚ
  strategy : String
deriving DecidableEq

/-- `FixedWindow.check`: `now = time.time()` is the explicit clock argument. -/
def FixedWindow.check (now : ℚ) (store : Store) (key : String) (limit : ℤ) (window : ℚ) :
    RateLimitResult × Store :=
  let slot : ℤ := ratTrunc (now / window)
  let r := store.incr now (.fw key slot) (some window)
  let count := r.1
  let reset_at := (slot + 1) * window
  let allowed : Bool := decide (count ≤ limit)
  (⟨allowed, key, max 0 (limit - count), limit, reset_at,
      if allowed then 0 else reset_at - now, "fixed_window"⟩, r.2)

/-- `SlidingWindowLog.check`. An absent key and the falsy empty deque both
read as the empty log; the `while log and log[0] <= cutoff: log.popleft()`
loop is `dropWhile`. On the denied-with-empty-log path (reachable only when
`limit ≤ 0`) the source would raise `IndexError` at `log[0]`; the model
returns `0` there. -/
def SlidingWindowLog.check (now : ℚ) (store : Store) (key : String) (limit : ℤ) (window : ℚ) :
    RateLimitResult × Store :=
  let cutoff := now - window
  let g := store.get now (.swl key)
  let log0 : List ℚ := match g.1 with | some (.log l) => l | _ => []
  let log1 := log0.dropWhile (fun t => decide (t ≤ cutoff))
  let allowed : Bool := decide ((log1.length : ℤ) < limit)
  let log2 := if allowed then log1 ++ [now] else log1
  let s' := g.2.set (.swl key) (.log log2) (some window) now
  let retry_after : ℚ :=
    if allowed then 0 else (match log2 with | t0 :: _ => t0 + window - now | [] => 0)
  (⟨allowed, key, max 0 (limit - (log2.length : ℤ)), limit, now + window, retry_after,
      "sliding_window_log"⟩, s')

/-- `TokenBucket.check`: `now = time.monotonic()`. A missing key reads as a
fresh `_BucketState(tokens=float(limit))` whose `last_refill` default is the
creation instant. -/
def TokenBucket.check (now : ℚ) (store : Store) (key : String) (limit : ℤ) (window : ℚ) :
    RateLimitResult × Store :=
  let rate : ℚ := (limit : ℚ) / window
  let g := store.get now (.tb key)
  let st : ℚ × ℚ := match g.1 with | some (.bucket tk lr) => (tk, lr) | _ => ((limit : ℚ), now)
  let elapsed := now - st.2
  let tokens1 : ℚ := min (limit : ℚ) (st.1 + elapsed * rate)
  let allowed : Bool := decide (1 ≤ tokens1)
  let tokens2 : ℚ := if allowed then tokens1 - 1 else tokens1
  let s' := g.2.set (.tb key) (.bucket tokens2 now) (some (window * 2)) now
  let retry_after : ℚ := if allowed then 0 else (1 - tokens2) / rate
  (⟨allowed, key, ratTrunc tokens2, limit, now + ((limit : ℚ) - tokens2) / rate, retry_after,
      "token_bucket"⟩, s')

/-- `LeakyBucket.check`: `now = time.monotonic()`. A missing key reads as a
fresh `_LeakyState()` with `queue_size = 0` and `last_leak` the creation
instant; `if leaked:` is Python integer truthiness, i.e. `leaked ≠ 0`. -/
def LeakyBucket.check (now : ℚ) (store : Store) (key : String) (limit : ℤ) (window : ℚ) :
    RateLimitResult × Store :=
  let rate : ℚ := (limit : ℚ) / window
  let g := store.get now (.lb key)
  let st : ℤ × ℚ := match g.1 with | some (.leaky q ll) => (q, ll) | _ => (0, now)
  let elapsed := now - st.2
  let leaked : ℤ := ratTrunc (elapsed * rate)
  let q1 : ℤ := max 0 (st.1 - leaked)
  let lastLeak : ℚ := if leaked ≠ 0 then now else st.2
  let allowed : Bool := decide (q1 < limit)
  let q2 : ℤ := if allowed then q1 + 1 else q1
  let s' := g.2.set (.lb key) (.leaky q2 lastLeak) (some (window * 2)) now
  (⟨allowed, key, max 0 (limit - q2), limit, now + (q2 : ℚ) / rate,
      if allowed then 0 else 1 / rate, "leaky_bucket"⟩, s')

/-- `StrategyType`. -/
inductive StrategyType where
  | fixed_window
  | sliding_window_log
  | token_bucket
  | leaky_bucket
deriving DecidableEq

/-- `RateLimitExceeded`, as raised by `enforce`. -/
structure RateLimitExceeded where
  key : String
  retry_after : ℚ
  limit : ℤ
  strategy : String
deriving DecidableEq

/-- `RateLimiter` configuration (the backing store is threaded separately as
explicit state). -/
structure RateLimiter where
  limit : ℤ
  window : ℚ
  strategy : StrategyType
  keyNs : String
  raise_on_limit : Bool
deriving DecidableEq

/-- The 8-hex-digit md5 fingerprint from `RateLimiter._build_key` is an
opaque external hash (`hashlib`); no claim depends on its value, so it is
modelled as a constant function. -/
def shortHash (_k : String) : String := ""

/-- `RateLimiter._build_key`: `f"{self.key_prefix}:{short_hash}:{key}"`. -/
def RateLimiter.build_key (rl : RateLimiter) (key : String) : String :=
  rl.keyNs ++ ":" ++ shortHash key ++ ":" ++ key

/-- `RateLimiter.__init__`. Its body performs no validation and no Python
exception can escape it; the `Except` result records where a configuration
error would surface if one were raised. -/
def RateLimiter.init (limit : ℤ) (window : ℚ) (strategy : StrategyType)
    (keyNs : String) (raise_on_limit : Bool) : Except String RateLimiter :=
  .ok ⟨limit, window, strategy, keyNs, raise_on_limit⟩

/-- `RateLimiter.check`: dispatches on the configured strategy (the
`logger.warning` on denial is I/O and has no effect on the result). -/
def RateLimiter.check (rl : RateLimiter) (now : ℚ) (s : Store) (key : String) :
    RateLimitResult × Store :=
  match rl.strategy with
  | .fixed_window => FixedWindow.check now s (rl.build_key key) rl.limit rl.window
  | .sliding_window_log => SlidingWindowLog.check now s (rl.build_key key) rl.limit rl.window
  | .token_bucket => TokenBucket.check now s (rl.build_key key) rl.limit rl.window
  | .leaky_bucket => LeakyBucket.check now s (rl.build_key key) rl.limit rl.window

/-- `RateLimiter.enforce`: raises `RateLimitExceeded(key, result.retry_after,
self.limit, result.strategy)` when the check result is denied. -/
def RateLimiter.enforce (rl : RateLimiter) (now : ℚ) (s : Store) (key : String) :
    Except RateLimitExceeded RateLimitResult × Store :=
  let r := rl.check now s key
  (if r.1.allowed then .ok r.1 else .error ⟨key, r.1.retry_after, rl.limit, r.1.strategy⟩, r.2)

/-- `RateLimiter.reset`: unconditionally deletes the sliding-log, token-bucket
and leaky-bucket keys, then the fixed-window keys of the current and the two
preceding slots. -/
def RateLimiter.reset (rl : RateLimiter) (now : ℚ) (s : Store) (key : String) : Store :=
  let fk := rl.build_key key
  let s1 := ((s.delete (.swl fk)).delete (.tb fk)).delete (.lb fk)
  let slot := ratTrunc (now / rl.window)
  ((s1.delete (.fw fk slot)).delete (.fw fk (slot - 1))).delete (.fw fk (slot - 2))

/-- Python error paths of `FixedWindow.check`: its only failing operation is
`int(now / window)` (line 202), which raises `ZeroDivisionError` iff
`window = 0`. -/
def FixedWindow.check_raises (_limit : ℤ) (window : ℚ) : Bool :=
  decide (window = 0)

/-- Python error paths of `SlidingWindowLog.check`: it performs no division;
its only failing operation is `log[0]` (line 251), evaluated exactly on the
denial path, which raises `IndexError` iff the trimmed log is empty (so every
call raises when `limit ≤ 0`). -/
def SlidingWindowLog.check_raises (now : ℚ) (store : Store) (key : String) (limit : ℤ)
    (window : ℚ) : Bool :=
  let cutoff := now - window
  let g := store.get now (.swl key)
  let log0 : List ℚ := match g.1 with | some (.log l) => l | _ => []
  let log1 := log0.dropWhile (fun t => decide (t ≤ cutoff))
  let allowed : Bool := decide ((log1.length : ℤ) < limit)
  !allowed && log1.isEmpty

/-- Python error paths of `TokenBucket.check`: `rate = limit / window`
(line 290) raises `ZeroDivisionError` iff `window = 0`, and with `limit = 0`
the rate is `0.0`, so the unconditional `reset_at` division by `rate`
(line 314) — and the denial-path `tokens_needed / rate` (line 307) — raise
`ZeroDivisionError` on every call. -/
def TokenBucket.check_raises (limit : ℤ) (window : ℚ) : Bool :=
  decide (window = 0 ∨ limit = 0)

/-- Python error paths of `LeakyBucket.check`: `rate = limit / window`
(line 346) raises iff `window = 0`, and with `limit = 0` the unconditional
`reset_at` division `queue_size / rate` (line 371) — and the denial-path
`1.0 / rate` (line 364) — raise `ZeroDivisionError` on every call. -/
def LeakyBucket.check_raises (limit : ℤ) (window : ℚ) : Bool :=
  decide (window = 0 ∨ limit = 0)

/-- Whether the source's `RateLimiter.check` raises a Python exception,
dispatching like `check` on the configured strategy. -/
def RateLimiter.check_raises (rl : RateLimiter) (now : ℚ) (s : Store) (key : String) :
    Bool :=
  match rl.strategy with
  | .fixed_window => FixedWindow.check_raises rl.limit rl.window
  | .sliding_window_log =>
    SlidingWindowLog.check_raises now s (rl.build_key key) rl.limit rl.window
  | .token_bucket => TokenBucket.check_raises rl.limit rl.window
  | .leaky_bucket => LeakyBucket.check_raises rl.limit rl.window

/-- Signature shared by the four `Strategy.check` implementations. -/
def CheckFn : Type :=
  ℚ → Store → String → ℤ → ℚ → RateLimitResult × Store

/-- Sequential checks on a single key: one call per entry of `times`, threading
the store. -/
def runTrace (f : CheckFn) (key : String) (limit : ℤ) (window : ℚ) :
    Store → List ℚ → List RateLimitResult × Store
  | s, [] => ([], s)
  | s, t :: ts =>
    let r := f t s key limit window
    let rest := runTrace f key limit window r.2 ts
    (r.1 :: rest.1, rest.2)

/-- Number of results with `allowed=true`. -/
def allowedCount (rs : List RateLimitResult) : ℕ :=
  (rs.filter (·.allowed)).length

/-- `TieredRateLimiter.enforce`: tiers in list order, stopping at the first
denial; the stores of tiers after the failing one are returned untouched. -/
def tieredEnforce (now : ℚ) (key : String) :
    List (RateLimiter × Store) →
      Except RateLimitExceeded (List RateLimitResult) × List (RateLimiter × Store)
  | [] => (.ok [], [])
  | (rl, s) :: rest =>
    let e := rl.enforce now s key
    match e.1 with
    | .error err => (.error err, (rl, e.2) :: rest)
    | .ok r =>
      let tl := tieredEnforce now key rest
      (match tl.1 with | .ok rs => .ok (r :: rs) | .error err => .error err, (rl, e.2) :: tl.2)

/-- Sequential `TieredRateLimiter.enforce` calls on a single key. -/
def tieredRun (key : String) :
    List ℚ → List (RateLimiter × Store) →
      List (Except RateLimitExceeded (List RateLimitResult)) × List (RateLimiter × Store)
  | [], ts => ([], ts)
  | t :: more, ts =>
    let o := tieredEnforce t key ts
    let rest := tieredRun key more o.2
    (o.1 :: rest.1, rest.2)

/-- Stored fixed-window counter for a slot (0 when absent). -/
def fwCount (s : Store) (key : String) (slot : ℤ) : ℤ :=
  match s.data (.fw key slot) with
  | some (.int n) => n
  | _ => 0

/-- Capped slot counter: the potential used to bound admissions per slot. -/
def fwPhi (s : Store) (key : String) (limit : ℤ) (slot : ℤ) : ℤ :=
  min limit (fwCount s key slot)

/-- Invariant of a fixed-window slot key during a span `[a, a+window)`: the
key is absent, or holds a nonnegative counter whose expiry lies at or beyond
the end of the span. -/
def FwInv (s : Store) (key : String) (a window : ℚ) (slot : ℤ) : Prop :=
  s.data (.fw key slot) = none ∨
    ∃ n, s.data (.fw key slot) = some (.int n) ∧ 0 ≤ n ∧
      ∃ e, s.ttl (.fw key slot) = some e ∧ a + window ≤ e

/-- Admission budget of a token-bucket state over the remainder of a span
ending at `a + window`: current tokens plus everything that can still refill. -/
def tbBudget (s : Store) (key : String) (limit : ℤ) (window a : ℚ) : ℚ :=
  match s.data (.tb key) with
  | some (.bucket tk lr) => tk + (a + window - lr) * ((limit : ℚ) / window)
  | _ => (limit : ℚ) + window * ((limit : ℚ) / window)

/-- Admission budget of a leaky-bucket state over the remainder of a span
ending at `a + window`: free queue slots plus everything that can still
drain. -/
def lbBudget (s : Store) (key : String) (limit : ℤ) (window a : ℚ) : ℤ :=
  match s.data (.lb key) with
  | some (.leaky q ll) => (limit - q) + ⌊(a + window - ll) * ((limit : ℚ) / window)⌋
  | _ => 2 * limit

/-! ## Helper lemmas -/

instance {ε α : Type} [DecidableEq ε] [DecidableEq α] : DecidableEq (Except ε α)
  | .ok a, .ok b =>
    if h : a = b then .isTrue (by rw [h]) else .isFalse (fun hc => h (Except.ok.inj hc))
  | .ok _, .error _ => .isFalse (fun hc => Except.noConfusion hc)
  | .error _, .ok _ => .isFalse (fun hc => Except.noConfusion hc)
  | .error a, .error b =>
    if h : a = b then .isTrue (by rw [h]) else .isFalse (fun hc => h (Except.error.inj hc))

theorem ratTrunc_intCast (n : ℤ) : ratTrunc (n : ℚ) = n := by
  rw [ratTrunc, Rat.num_intCast, Rat.den_intCast]
  exact Int.tdiv_one n

theorem ratTrunc_zero : ratTrunc 0 = 0 := rfl

theorem ratTrunc_nonneg {q : ℚ} (h : 0 ≤ q) : 0 ≤ ratTrunc q := by
  rw [ratTrunc_eq_floor h]
  exact Int.floor_nonneg.mpr h

theorem setFn_same (f : StoreKey → Option α) (k : StoreKey) (v : Option α) :
    setFn f k v k = v := by
  simp [setFn]

theorem setFn_ne (f : StoreKey → Option α) (k : StoreKey) (v : Option α)
    {k' : StoreKey} (h : k' ≠ k) : setFn f k v k' = f k' := by
  simp [setFn, h]

theorem Store.data_delete_same (s : Store) (k : StoreKey) : (s.delete k).data k = none :=
  setFn_same _ _ _

theorem Store.data_delete_ne (s : Store) (k : StoreKey) {k' : StoreKey} (h : k' ≠ k) :
    (s.delete k).data k' = s.data k' :=
  setFn_ne _ _ _ h

theorem Store.ttl_delete_same (s : Store) (k : StoreKey) : (s.delete k).ttl k = none :=
  setFn_same _ _ _

theorem Store.ttl_delete_ne (s : Store) (k : StoreKey) {k' : StoreKey} (h : k' ≠ k) :
    (s.delete k).ttl k' = s.ttl k' :=
  setFn_ne _ _ _ h

theorem Store.data_delete_apply (s : Store) (k k' : StoreKey) :
    (s.delete k).data k' = if k' = k then none else s.data k' := by
  simp [Store.delete, Store.evict, setFn]

theorem Store.ttl_delete_apply (s : Store) (k k' : StoreKey) :
    (s.delete k).ttl k' = if k' = k then none else s.ttl k' := by
  simp [Store.delete, Store.evict, setFn]

theorem Store.isExpired_of_ttl_none (s : Store) (now : ℚ) (k : StoreKey)
    (h : s.ttl k = none) : s.isExpired now k = false := by
  simp [Store.isExpired, h]

/-- On a sorted log, popping leading entries `≤ cutoff` removes exactly every
entry `≤ cutoff`. -/
theorem dropWhile_le_eq_filter (c : ℚ) :
    ∀ (l : List ℚ), l.Sorted (· ≤ ·) →
      l.dropWhile (fun t => decide (t ≤ c)) = l.filter (fun t => decide (c < t))
  | [], _ => rfl
  | x :: xs, h => by
    rcases List.sorted_cons.mp h with ⟨hx, hxs⟩
    by_cases hc : x ≤ c
    · simp only [List.dropWhile, List.filter, decide_eq_true_eq, hc, decide_True,
        not_lt.mpr hc, decide_False]
      exact dropWhile_le_eq_filter c xs hxs
    · have hlt : c < x := not_le.mp hc
      simp only [List.dropWhile, List.filter, hc, decide_False, decide_True, hlt]
      rw [List.filter_eq_self.mpr]
      intro a ha
      exact decide_eq_true (lt_of_lt_of_le hlt (hx a ha))

/-- If every entry is `≤ cutoff`, trimming empties the log. -/
theorem dropWhile_le_eq_nil {c : ℚ} :
    ∀ {l : List ℚ}, (∀ x ∈ l, x ≤ c) → l.dropWhile (fun t => decide (t ≤ c)) = []
  | [], _ => rfl
  | x :: xs, h => by
    simp only [List.dropWhile, h x (List.mem_cons_self x xs), decide_True]
    exact dropWhile_le_eq_nil fun a ha => h a (List.mem_cons_of_mem x ha)

/-- If every entry is strictly beyond the cutoff, trimming removes nothing. -/
theorem dropWhile_le_eq_self {c : ℚ} :
    ∀ {l : List ℚ}, (∀ x ∈ l, c < x) → l.dropWhile (fun t => decide (t ≤ c)) = l
  | [], _ => rfl
  | x :: xs, h => by
    have : ¬ x ≤ c := not_le.mpr (h x (List.mem_cons_self x xs))
    simp [List.dropWhile, this]

theorem allowedCount_cons (x : RateLimitResult) (xs : List RateLimitResult) :
    allowedCount (x :: xs) = (if x.allowed then 1 else 0) + allowedCount xs := by
  cases h : x.allowed <;> simp [allowedCount, List.filter, h, Nat.add_comm]

theorem floor_add_floor_le (x y : ℚ) : ⌊x⌋ + ⌊y⌋ ≤ ⌊x + y⌋ := by
  rw [Int.le_floor]
  push_cast
  have hx := Int.floor_le x
  have hy := Int.floor_le y
  linarith

/-- A time inside a window-length span `[a, a+window)` of nonnegative reals
lands in the span's starting slot or the one right after it. -/
theorem slot_mem {window a t : ℚ} (hwin : 0 < window) (ha : 0 ≤ a)
    (h1 : a ≤ t) (h2 : t < a + window) :
    ratTrunc (t / window) = ratTrunc (a / window) ∨
      ratTrunc (t / window) = ratTrunc (a / window) + 1 := by
  have hta : ratTrunc (t / window) = ⌊t / window⌋ :=
    ratTrunc_eq_floor (div_nonneg (by linarith) (le_of_lt hwin))
  have haa : ratTrunc (a / window) = ⌊a / window⌋ :=
    ratTrunc_eq_floor (div_nonneg ha (le_of_lt hwin))
  have hmono : ⌊a / window⌋ ≤ ⌊t / window⌋ :=
    Int.floor_le_floor (by gcongr)
  have hup : ⌊t / window⌋ ≤ ⌊a / window⌋ + 1 := by
    have : t / window ≤ a / window + 1 := by
      rw [div_add' _ _ _ (ne_of_gt hwin)]
      gcongr
      linarith
    calc ⌊t / window⌋ ≤ ⌊a / window + 1⌋ := Int.floor_le_floor this
      _ = ⌊a / window⌋ + 1 := by rw [Int.floor_add_one]
  rw [hta, haa]
  omega

/-! ## Claim theorems -/

/-- C7: a fresh `FixedWindow` limiter with `limit=2`, `window=60`, single key:
checks at `t=0, 0` are allowed with `remaining=1,0`; at `t=10` denied with
`retry_after = reset_at - now = 50` exactly (`reset_at = 60`); at `t=61`
allowed again with `remaining=1`. -/
theorem c7_fixed_window_scenario :
    ((runTrace FixedWindow.check "k" 2 60 Store.empty [0, 0, 10, 61]).1.map
        (fun x => (x.allowed, x.remaining, x.retry_after, x.reset_at))) =
      [(true, 1, 0, 60), (true, 0, 0, 60), (false, 0, 50, 60), (true, 1, 0, 120)] := by
  with_unfolding_all decide

/-- C10: the `raise_on_limit` constructor parameter is accepted and stored but
never consulted: two limiters differing only in that flag produce identical
`check` results (and identical store effects) on every input, and `check`
cannot raise (it is a total function into `RateLimitResult × Store`). -/
theorem c10_raise_on_limit_no_effect :
    ∀ (limit : ℤ) (window : ℚ) (strat : StrategyType) (ns : String) (b b' : Bool)
      (now : ℚ) (s : Store) (key : String),
      (RateLimiter.mk limit window strat ns b).check now s key =
          (RateLimiter.mk limit window strat ns b').check now s key ∧
        RateLimiter.init limit window strat ns b = .ok ⟨limit, window, strat, ns, b⟩ :=
  fun _ _ _ _ _ _ _ _ _ => ⟨rfl, rfl⟩

/-- C2 counterexample: constructing a `RateLimiter` with `limit ≤ 0` or
`window ≤ 0` does NOT fail: `__init__` performs no validation, so construction
succeeds for `limit=0`, `window=0` and negative values alike. -/
theorem c2_counterexample_no_construction_failure :
    (RateLimiter.init 0 60 .sliding_window_log "rl" false).isOk = true ∧
      (RateLimiter.init 100 0 .token_bucket "rl" false).isOk = true ∧
      (RateLimiter.init (-5) (-1) .fixed_window "rl" false).isOk = true :=
  ⟨rfl, rfl, rfl⟩

/-- C2 (amended): the constructor accepts any `limit` and `window` without
validation — including `limit ≤ 0` and `window ≤ 0` — and the stored values
are the ones later `check` calls use (the returned result's `limit` field is
the constructed one). -/
theorem c2_init_accepts_any_config :
    ∀ (limit : ℤ) (window : ℚ) (strat : StrategyType) (ns : String) (b : Bool),
      RateLimiter.init limit window strat ns b = .ok ⟨limit, window, strat, ns, b⟩ ∧
        ∀ (now : ℚ) (s : Store) (key : String),
          ((RateLimiter.mk limit window strat ns b).check now s key).1.limit = limit := by
  intro limit window strat ns b
  refine ⟨rfl, fun now s key => ?_⟩
  cases strat <;> rfl

/-- C3 counterexample: `check` is not exception-free for every configuration.
A `RateLimiter(limit=0, window=60)` with the default sliding-window-log
strategy is constructible (no validation, see C2), and its very first
`check` call is denied with an empty trimmed log, so the source evaluates
`log[0]` on an empty deque and raises `IndexError` — inside `check`, not
`enforce`. -/
theorem c3_counterexample_check_raises :
    RateLimiter.init 0 60 .sliding_window_log "rl" false =
        .ok (RateLimiter.mk 0 60 .sliding_window_log "rl" false) ∧
      (RateLimiter.mk 0 60 .sliding_window_log "rl" false).check_raises 0
        Store.empty "u" = true := by
  exact ⟨rfl, by with_unfolding_all decide⟩

/-- C3 (amended): for every configuration with `limit ≥ 1` and `window ≠ 0`
(the domain in which none of `check`'s Python error sites can fire),
`check(key)` never raises — no strategy's raise condition holds, and the
model's `check` returns a `RateLimitResult` with denial reported as
`allowed=false` — and `enforce(key)` fails with `RateLimitExceeded ⟨key,
retry_after, limit, strategy⟩` exactly when the underlying check result is
denied, returning that result unchanged otherwise. Outside that domain
`check` itself can raise (`IndexError` at `log[0]` when `limit ≤ 0` under
sliding-window-log; `ZeroDivisionError` when `window = 0` or `limit = 0` in
the other strategies). -/
theorem c3_amended_enforce_raises_iff_denied :
    ∀ (rl : RateLimiter) (now : ℚ) (s : Store) (key : String),
      1 ≤ rl.limit → rl.window ≠ 0 →
      rl.check_raises now s key = false ∧
        rl.enforce now s key =
          (if (rl.check now s key).1.allowed
            then .ok (rl.check now s key).1
            else .error ⟨key, (rl.check now s key).1.retry_after, rl.limit,
                          (rl.check now s key).1.strategy⟩,
            (rl.check now s key).2) ∧
        ∀ e, (rl.enforce now s key).1 = .error e ↔
          ((rl.check now s key).1.allowed = false ∧
            e = ⟨key, (rl.check now s key).1.retry_after, rl.limit,
                  (rl.check now s key).1.strategy⟩) := by
  intro rl now s key hlim hwin
  refine ⟨?_, rfl, fun e => ?_⟩
  · obtain ⟨limit, window, strat, ns, b⟩ := rl
    simp only at hlim hwin
    cases strat
    case fixed_window =>
      simp [RateLimiter.check_raises, FixedWindow.check_raises, hwin]
    case sliding_window_log =>
      simp only [RateLimiter.check_raises, SlidingWindowLog.check_raises,
        Bool.and_eq_false_eq_eq_false_or_eq_false, Bool.not_eq_false', decide_eq_true_eq,
        List.isEmpty_eq_false_iff_exists_mem]
      by_cases hal : ((((match (Store.get s now (.swl (RateLimiter.build_key
          ⟨limit, window, .sliding_window_log, ns, b⟩ key))).1 with
            | some (.log l) => l
            | _ => [])).dropWhile
          (fun t => decide (t ≤ now - window))).length : ℤ) < limit
      · exact .inl hal
      · refine .inr ?_
        rcases List.exists_mem_of_length_pos (l := (((match (Store.get s now
            (.swl (RateLimiter.build_key ⟨limit, window, .sliding_window_log, ns, b⟩
              key))).1 with
              | some (.log l) => l
              | _ => [])).dropWhile (fun t => decide (t ≤ now - window))))
            (by omega) with ⟨x, hx⟩
        exact ⟨x, hx⟩
    case token_bucket =>
      simp only [RateLimiter.check_raises, TokenBucket.check_raises]
      simp [hwin]
      omega
    case leaky_bucket =>
      simp only [RateLimiter.check_raises, LeakyBucket.check_raises]
      simp [hwin]
      omega
  · unfold RateLimiter.enforce
    cases h : (rl.check now s key).1.allowed <;> simp [h]
    exact eq_comm

/-- Witness for C3 (amended): a sliding-window limiter with `limit=2`,
`window=60` over a store whose log is full for the key — the call is denied
yet raise-free, and `enforce` errors with the exact payload. -/
theorem c3_amended_enforce_raises_iff_denied_witness :
    ((1 : ℤ) ≤ (RateLimiter.mk 2 60 .sliding_window_log "rl" false).limit ∧
        (RateLimiter.mk 2 60 .sliding_window_log "rl" false).window ≠ 0) ∧
      ((RateLimiter.mk 2 60 .sliding_window_log "rl" false).check_raises 100
          (runTrace SlidingWindowLog.check
            ((RateLimiter.mk 2 60 .sliding_window_log "rl" false).build_key "u")
            2 60 Store.empty [90, 95]).2 "u" = false ∧
        (RateLimiter.mk 2 60 .sliding_window_log "rl" false).enforce 100
            (runTrace SlidingWindowLog.check
              ((RateLimiter.mk 2 60 .sliding_window_log "rl" false).build_key "u")
              2 60 Store.empty [90, 95]).2 "u" =
          (if ((RateLimiter.mk 2 60 .sliding_window_log "rl" false).check 100
              (runTrace SlidingWindowLog.check
                ((RateLimiter.mk 2 60 .sliding_window_log "rl" false).build_key "u")
                2 60 Store.empty [90, 95]).2 "u").1.allowed
            then .ok ((RateLimiter.mk 2 60 .sliding_window_log "rl" false).check 100
              (runTrace SlidingWindowLog.check
                ((RateLimiter.mk 2 60 .sliding_window_log "rl" false).build_key "u")
                2 60 Store.empty [90, 95]).2 "u").1
            else .error ⟨"u", ((RateLimiter.mk 2 60 .sliding_window_log "rl"
                false).check 100
              (runTrace SlidingWindowLog.check
                ((RateLimiter.mk 2 60 .sliding_window_log "rl" false).build_key "u")
                2 60 Store.empty [90, 95]).2 "u").1.retry_after,
              (RateLimiter.mk 2 60 .sliding_window_log "rl" false).limit,
              ((RateLimiter.mk 2 60 .sliding_window_log "rl" false).check 100
                (runTrace SlidingWindowLog.check
                  ((RateLimiter.mk 2 60 .sliding_window_log "rl" false).build_key "u")
                  2 60 Store.empty [90, 95]).2 "u").1.strategy⟩,
            ((RateLimiter.mk 2 60 .sliding_window_log "rl" false).check 100
              (runTrace SlidingWindowLog.check
                ((RateLimiter.mk 2 60 .sliding_window_log "rl" false).build_key "u")
                2 60 Store.empty [90, 95]).2 "u").2)) :=
  ⟨⟨by decide, by with_unfolding_all decide⟩,
    ⟨(c3_amended_enforce_raises_iff_denied
        (RateLimiter.mk 2 60 .sliding_window_log "rl" false) 100
        (runTrace SlidingWindowLog.check
          ((RateLimiter.mk 2 60 .sliding_window_log "rl" false).build_key "u")
          2 60 Store.empty [90, 95]).2 "u" (by decide)
        (by with_unfolding_all decide)).1,
      (c3_amended_enforce_raises_iff_denied
        (RateLimiter.mk 2 60 .sliding_window_log "rl" false) 100
        (runTrace SlidingWindowLog.check
          ((RateLimiter.mk 2 60 .sliding_window_log "rl" false).build_key "u")
          2 60 Store.empty [90, 95]).2 "u" (by decide)
        (by with_unfolding_all decide)).2.1⟩⟩

/-- C6: `TieredRateLimiter.enforce` evaluates tiers in list order and raises
on the first denial without evaluating (or charging) any later tier; with
tiers `{limit=3, window=5, TokenBucket}` then `{limit=6, window=10,
FixedWindow}`, seven back-to-back enforce calls on one key allow exactly
requests 1-3, deny request 4 and identify the token-bucket tier, and the
fixed-window tier's counter ends charged with only 3 requests. -/
theorem c6_tiered_enforce_first_denial :
    (∀ (now : ℚ) (key : String) (rl : RateLimiter) (s : Store)
        (rest : List (RateLimiter × Store)) (e : RateLimitExceeded),
        (rl.enforce now s key).1 = .error e →
          tieredEnforce now key ((rl, s) :: rest) =
            (.error e, (rl, (rl.enforce now s key).2) :: rest)) ∧
      ((tieredRun "api_user" [0, 0, 0, 0, 0, 0, 0]
            [(RateLimiter.mk 3 5 .token_bucket "rl" false, Store.empty),
             (RateLimiter.mk 6 10 .fixed_window "rl" false, Store.empty)]).1.map
          (fun o => o.isOk) = [true, true, true, false, false, false, false] ∧
        (tieredRun "api_user" [0, 0, 0, 0, 0, 0, 0]
            [(RateLimiter.mk 3 5 .token_bucket "rl" false, Store.empty),
             (RateLimiter.mk 6 10 .fixed_window "rl" false, Store.empty)]).1[3]? =
          some (.error ⟨"api_user", mkRat 5 3, 3, "token_bucket"⟩) ∧
        ((tieredRun "api_user" [0, 0, 0, 0, 0, 0, 0]
            [(RateLimiter.mk 3 5 .token_bucket "rl" false, Store.empty),
             (RateLimiter.mk 6 10 .fixed_window "rl" false, Store.empty)]).2.map
          (fun p => p.2.data (.fw "rl::api_user" 0)))[1]? = some (some (.int 3))) := by
  constructor
  · intro now key rl s rest e he
    simp only [tieredEnforce, he]
  · refine ⟨?_, ?_, ?_⟩ <;> with_unfolding_all decide

/-- Witness for C6: the short-circuit conjunct applied to a one-tier list
whose only limiter (limit 0) denies at once. -/
theorem c6_tiered_enforce_first_denial_witness :
    ((RateLimiter.mk 0 5 .fixed_window "rl" false).enforce 0 Store.empty "u").1 =
        .error ⟨"u", 5, 0, "fixed_window"⟩ ∧
      tieredEnforce 0 "u" [(RateLimiter.mk 0 5 .fixed_window "rl" false, Store.empty)] =
        (.error ⟨"u", 5, 0, "fixed_window"⟩,
          [(RateLimiter.mk 0 5 .fixed_window "rl" false,
            ((RateLimiter.mk 0 5 .fixed_window "rl" false).enforce 0 Store.empty "u").2)]) :=
  ⟨by with_unfolding_all decide,
    c6_tiered_enforce_first_denial.1 0 "u" (RateLimiter.mk 0 5 .fixed_window "rl" false)
      Store.empty [] ⟨"u", 5, 0, "fixed_window"⟩ (by with_unfolding_all decide)⟩

/-- C9: `incr` on a live counter returns the incremented count, stores it, and
leaves the TTL map entirely unchanged (the TTL argument is applied only on the
transition to count 1); `incr` on an absent key returns 1 and installs the
absolute expiry `now + ttl`; a `get` or `incr` against an expired key behaves
as if the key were absent and evicts it. (Counters stored by `incr` are always
`≥ 1`, hence the `n ≠ 0` guard.) -/
theorem c9_incr_ttl_only_on_creation :
    ∀ (s : Store) (now : ℚ) (k : StoreKey) (t : ℚ) (n : ℤ),
      (s.isExpired now k = false → s.data k = some (.int n) → n ≠ 0 →
        s.incr now k (some t) =
          (n + 1, { data := setFn s.data k (some (.int (n + 1))), ttl := s.ttl })) ∧
        (s.isExpired now k = false → s.data k = none →
          s.incr now k (some t) =
            (1, { data := setFn s.data k (some (.int 1)),
                  ttl := setFn s.ttl k (some (now + t)) })) ∧
        (s.isExpired now k = true →
          s.get now k = (none, s.evict k) ∧
            s.incr now k (some t) =
              (1, { data := setFn (s.evict k).data k (some (.int 1)),
                    ttl := setFn (s.evict k).ttl k (some (now + t)) })) := by
  intro s now k t n
  refine ⟨fun hexp hdata hn => ?_, fun hexp hdata => ?_, fun hexp => ⟨?_, ?_⟩⟩
  · have h1 : n + 1 ≠ 1 := by omega
    simp [Store.incr, Store.set, hexp, hdata, h1]
  · simp [Store.incr, Store.set, hexp, hdata]
  · simp [Store.get, hexp]
  · simp [Store.incr, Store.set, Store.evict, hexp, setFn_same]

/-- Witness for C9: a live counter key (`n = 2`, unexpired) and an expired
key, at concrete times. -/
theorem c9_incr_ttl_only_on_creation_witness :
    ((Store.mk (setFn Store.empty.data (.swl "x") (some (.int 2)))
          (setFn Store.empty.ttl (.swl "x") (some 100))).incr 5 (.swl "x") (some 7) =
        (3, { data := setFn (Store.mk (setFn Store.empty.data (.swl "x") (some (.int 2)))
                        (setFn Store.empty.ttl (.swl "x") (some 100))).data (.swl "x")
                        (some (.int 3)),
              ttl := (Store.mk (setFn Store.empty.data (.swl "x") (some (.int 2)))
                        (setFn Store.empty.ttl (.swl "x") (some 100))).ttl })) ∧
      ((Store.mk (setFn Store.empty.data (.swl "x") (some (.int 2)))
          (setFn Store.empty.ttl (.swl "x") (some 1))).get 5 (.swl "x") =
        (none, (Store.mk (setFn Store.empty.data (.swl "x") (some (.int 2)))
                  (setFn Store.empty.ttl (.swl "x") (some 1))).evict (.swl "x"))) :=
  ⟨(c9_incr_ttl_only_on_creation
        (Store.mk (setFn Store.empty.data (.swl "x") (some (.int 2)))
          (setFn Store.empty.ttl (.swl "x") (some 100))) 5 (.swl "x") 7 2).1
      (by with_unfolding_all decide) (by with_unfolding_all decide) (by decide),
    ((c9_incr_ttl_only_on_creation
        (Store.mk (setFn Store.empty.data (.swl "x") (some (.int 2)))
          (setFn Store.empty.ttl (.swl "x") (some 1))) 5 (.swl "x") 7 2).2.2
      (by with_unfolding_all decide)).1⟩

/-- A check against a store whose current-slot fixed-window key is absent is
allowed with `remaining = limit - 1`. -/
theorem fw_fresh_check {now window : ℚ} {key : String} {limit : ℤ} {s : Store}
    (hd : s.data (.fw key (ratTrunc (now / window))) = none)
    (ht : s.ttl (.fw key (ratTrunc (now / window))) = none)
    (hlim : 1 ≤ limit) :
    (FixedWindow.check now s key limit window).1.allowed = true ∧
      (FixedWindow.check now s key limit window).1.remaining = limit - 1 := by
  have hexp := Store.isExpired_of_ttl_none s now _ ht
  simp [FixedWindow.check, Store.incr, hexp, hd, hlim]

theorem swl_fresh_check {now window : ℚ} {key : String} {limit : ℤ} {s : Store}
    (hd : s.data (.swl key) = none) (ht : s.ttl (.swl key) = none)
    (hlim : 1 ≤ limit) :
    (SlidingWindowLog.check now s key limit window).1.allowed = true ∧
      (SlidingWindowLog.check now s key limit window).1.remaining = limit - 1 := by
  have hexp := Store.isExpired_of_ttl_none s now _ ht
  have h0 : (0 : ℤ) < limit := by omega
  simp [SlidingWindowLog.check, Store.get, hexp, hd, h0]
  omega

theorem tb_fresh_check {now window : ℚ} {key : String} {limit : ℤ} {s : Store}
    (hd : s.data (.tb key) = none) (ht : s.ttl (.tb key) = none)
    (hlim : 1 ≤ limit) :
    (TokenBucket.check now s key limit window).1.allowed = true ∧
      (TokenBucket.check now s key limit window).1.remaining = limit - 1 := by
  have hexp := Store.isExpired_of_ttl_none s now _ ht
  have hq : (1 : ℚ) ≤ (limit : ℚ) := by exact_mod_cast hlim
  have hcast : ((limit : ℚ) - 1) = ((limit - 1 : ℤ) : ℚ) := by push_cast; ring
  simp [TokenBucket.check, Store.get, hexp, hd, hq]
  rw [hcast, ratTrunc_intCast]

theorem lb_fresh_check {now window : ℚ} {key : String} {limit : ℤ} {s : Store}
    (hd : s.data (.lb key) = none) (ht : s.ttl (.lb key) = none)
    (hlim : 1 ≤ limit) :
    (LeakyBucket.check now s key limit window).1.allowed = true ∧
      (LeakyBucket.check now s key limit window).1.remaining = limit - 1 := by
  have hexp := Store.isExpired_of_ttl_none s now _ ht
  have h0 : (0 : ℤ) < limit := by omega
  simp [LeakyBucket.check, Store.get, hexp, hd, ratTrunc_zero, h0]
  omega

/-- After `reset`, the per-strategy key of the configured strategy is absent
from both store maps (for fixed window: the current slot's key). -/
theorem reset_clears_strategy_key (rl : RateLimiter) (now : ℚ) (s : Store) (key : String) :
    ((rl.reset now s key).data (.swl (rl.build_key key)) = none ∧
        (rl.reset now s key).ttl (.swl (rl.build_key key)) = none) ∧
      ((rl.reset now s key).data (.tb (rl.build_key key)) = none ∧
        (rl.reset now s key).ttl (.tb (rl.build_key key)) = none) ∧
      ((rl.reset now s key).data (.lb (rl.build_key key)) = none ∧
        (rl.reset now s key).ttl (.lb (rl.build_key key)) = none) ∧
      ((rl.reset now s key).data
          (.fw (rl.build_key key) (ratTrunc (now / rl.window))) = none ∧
        (rl.reset now s key).ttl
          (.fw (rl.build_key key) (ratTrunc (now / rl.window))) = none) := by
  have h1 : ¬ (ratTrunc (now / rl.window) = ratTrunc (now / rl.window) - 1) := by omega
  have h2 : ¬ (ratTrunc (now / rl.window) = ratTrunc (now / rl.window) - 2) := by omega
  refine ⟨⟨?_, ?_⟩, ⟨?_, ?_⟩, ⟨?_, ?_⟩, ⟨?_, ?_⟩⟩ <;>
    simp [RateLimiter.reset, Store.data_delete_apply, Store.ttl_delete_apply, h1, h2]

/-- C8: for every strategy, key, prior store state and `limit >= 1`,
`reset(key)` followed immediately by `check(key)` (same clock instant, no
intervening traffic) yields `allowed=true` and `remaining = limit - 1`. -/
theorem c8_reset_then_check :
    forall (rl : RateLimiter) (now : ℚ) (s : Store) (key : String),
      1 ≤ rl.limit →
        (rl.check now (rl.reset now s key) key).1.allowed = true ∧
          (rl.check now (rl.reset now s key) key).1.remaining = rl.limit - 1 := by
  intro rl now s key hlim
  obtain ⟨hswl, htb, hlb, hfw⟩ := reset_clears_strategy_key rl now s key
  obtain ⟨limit, window, strat, ns, b⟩ := rl
  simp only at hlim hswl htb hlb hfw
  cases strat
  case fixed_window =>
    exact fw_fresh_check hfw.1 hfw.2 hlim
  case sliding_window_log =>
    exact swl_fresh_check hswl.1 hswl.2 hlim
  case token_bucket =>
    exact tb_fresh_check htb.1 htb.2 hlim
  case leaky_bucket =>
    exact lb_fresh_check hlb.1 hlb.2 hlim

/-- Witness for C8: a sliding-window limiter with `limit=2` and a store
pre-poisoned with a full log for the key. -/
theorem c8_reset_then_check_witness :
    (1 : ℤ) ≤ (RateLimiter.mk 2 60 .sliding_window_log "rl" false).limit ∧
      (((RateLimiter.mk 2 60 .sliding_window_log "rl" false).check 100
            ((RateLimiter.mk 2 60 .sliding_window_log "rl" false).reset 100
              (runTrace SlidingWindowLog.check
                ((RateLimiter.mk 2 60 .sliding_window_log "rl" false).build_key "u")
                2 60 Store.empty [90, 95, 99]).2 "u") "u").1.allowed = true ∧
        ((RateLimiter.mk 2 60 .sliding_window_log "rl" false).check 100
            ((RateLimiter.mk 2 60 .sliding_window_log "rl" false).reset 100
              (runTrace SlidingWindowLog.check
                ((RateLimiter.mk 2 60 .sliding_window_log "rl" false).build_key "u")
                2 60 Store.empty [90, 95, 99]).2 "u") "u").1.remaining =
          (RateLimiter.mk 2 60 .sliding_window_log "rl" false).limit - 1) :=
  ⟨by decide,
    c8_reset_then_check (RateLimiter.mk 2 60 .sliding_window_log "rl" false) 100
      (runTrace SlidingWindowLog.check
        ((RateLimiter.mk 2 60 .sliding_window_log "rl" false).build_key "u")
        2 60 Store.empty [90, 95, 99]).2 "u" (by decide)⟩

/-- C5: on its (ascending) stored log, `SlidingWindowLog.check` first drops
every timestamp `≤ now - window`, allows iff the trimmed log has fewer than
`limit` entries, appends `now` exactly when allowed, reports
`retry_after = log[0] + window - now` when denied, and consequently a check
made exactly `window` seconds after a denied check on the same key is
allowed. -/
theorem c5_sliding_window_log_check :
    ∀ (s : Store) (now window : ℚ) (key : String) (limit : ℤ) (l : List ℚ),
      s.isExpired now (.swl key) = false →
      s.data (.swl key) = some (.log l) →
      l.Sorted (· ≤ ·) →
      ((SlidingWindowLog.check now s key limit window).1.allowed =
          decide (((l.filter (fun t => decide (now - window < t))).length : ℤ) < limit) ∧
        (SlidingWindowLog.check now s key limit window).2.data (.swl key) =
          some (.log (if ((l.filter (fun t => decide (now - window < t))).length : ℤ) < limit
            then l.filter (fun t => decide (now - window < t)) ++ [now]
            else l.filter (fun t => decide (now - window < t)))) ∧
        (∀ t0 rest, l.filter (fun t => decide (now - window < t)) = t0 :: rest →
          (SlidingWindowLog.check now s key limit window).1.allowed = false →
          (SlidingWindowLog.check now s key limit window).1.retry_after = t0 + window - now) ∧
        (1 ≤ limit → (∀ x ∈ l, x ≤ now) →
          (SlidingWindowLog.check now s key limit window).1.allowed = false →
          (SlidingWindowLog.check (now + window)
              (SlidingWindowLog.check now s key limit window).2 key limit window).1.allowed =
            true)) := by
  intro s now window key limit l hexp hdata hsort
  have hdw := dropWhile_le_eq_filter (now - window) l hsort
  have ha : (SlidingWindowLog.check now s key limit window).1.allowed =
      decide (((l.filter (fun t => decide (now - window < t))).length : ℤ) < limit) := by
    simp [SlidingWindowLog.check, Store.get, hexp, hdata, hdw]
  refine ⟨ha, ?_, ?_, ?_⟩
  · simp [SlidingWindowLog.check, Store.get, hexp, hdata, hdw, Store.set, setFn_same]
  · intro t0 rest hfil hden
    rw [ha] at hden
    have hlen := of_decide_eq_false hden
    rw [hfil] at hlen
    simp only [List.length_cons, Nat.cast_add, Nat.cast_one] at hlen
    simp [SlidingWindowLog.check, Store.get, hexp, hdata, hdw, hfil, hlen]
  · intro hlim hle hden
    rw [ha] at hden
    have hlen := of_decide_eq_false hden
    have hdata2 : (SlidingWindowLog.check now s key limit window).2.data (.swl key) =
        some (.log (l.filter (fun t => decide (now - window < t)))) := by
      simp [SlidingWindowLog.check, Store.get, hexp, hdata, hdw, hlen, Store.set, setFn_same]
    have httl2 : (SlidingWindowLog.check now s key limit window).2.ttl (.swl key) =
        some (now + window) := by
      simp [SlidingWindowLog.check, Store.get, hexp, hdata, Store.set, setFn_same]
    have hexp2 : (SlidingWindowLog.check now s key limit window).2.isExpired
        (now + window) (.swl key) = false := by
      simp [Store.isExpired, httl2]
    have hcut : now + window - window = now := by ring
    have hnil : (l.filter (fun t => decide (now - window < t))).dropWhile
        (fun t => decide (t ≤ now)) = [] :=
      dropWhile_le_eq_nil fun x hx => hle x (List.mem_of_mem_filter hx)
    have h0 : (0 : ℤ) < limit := by omega
    set s2 := (SlidingWindowLog.check now s key limit window).2 with hs2
    simp [SlidingWindowLog.check, Store.get, hexp2, hdata2, hcut, hnil, h0]

/-- Witness for C5: a full log `[5, 9]` (limit 2, window 10) denied at
`now = 12`, allowed again at `now = 22`. -/
theorem c5_sliding_window_log_check_witness :
    ((Store.mk (setFn Store.empty.data (.swl "k") (some (.log [5, 9])))
          (setFn Store.empty.ttl (.swl "k") (some 19))).isExpired 12 (.swl "k") = false ∧
        (Store.mk (setFn Store.empty.data (.swl "k") (some (.log [5, 9])))
          (setFn Store.empty.ttl (.swl "k") (some 19))).data (.swl "k") =
          some (.log [5, 9]) ∧
        ([5, 9] : List ℚ).Sorted (· ≤ ·)) ∧
      ((SlidingWindowLog.check 12
            (Store.mk (setFn Store.empty.data (.swl "k") (some (.log [5, 9])))
              (setFn Store.empty.ttl (.swl "k") (some 19))) "k" 2 10).1.allowed =
          decide (((([5, 9] : List ℚ).filter
              (fun t => decide ((12 : ℚ) - 10 < t))).length : ℤ) < 2)) := by
  have hs : ((Store.mk (setFn Store.empty.data (.swl "k") (some (.log [5, 9])))
      (setFn Store.empty.ttl (.swl "k") (some 19))).isExpired 12 (.swl "k") = false ∧
      (Store.mk (setFn Store.empty.data (.swl "k") (some (.log [5, 9])))
        (setFn Store.empty.ttl (.swl "k") (some 19))).data (.swl "k") =
        some (.log [5, 9]) ∧
      ([5, 9] : List ℚ).Sorted (· ≤ ·)) := by
    refine ⟨by with_unfolding_all decide, by with_unfolding_all decide, ?_⟩
    simp [List.sorted_cons]
    with_unfolding_all decide
  exact ⟨hs, (c5_sliding_window_log_check
    (Store.mk (setFn Store.empty.data (.swl "k") (some (.log [5, 9])))
      (setFn Store.empty.ttl (.swl "k") (some 19))) 12 10 "k" 2 [5, 9]
    hs.1 hs.2.1 hs.2.2).1⟩

/-- One `TokenBucket.check` step: from a state within bounds (or a fresh key,
or an expired key) the stored bucket stays within `0 ≤ tokens ≤ limit` and its
`last_refill` becomes `now`. -/
theorem tb_check_step {s : Store} {key : String} {limit : ℤ} {window now : ℚ}
    (hlim : 1 ≤ limit) (hwin : 0 < window)
    (hinv : s.data (.tb key) = none ∨
      ∃ tk lr, s.data (.tb key) = some (.bucket tk lr) ∧ 0 ≤ tk ∧ tk ≤ (limit : ℚ) ∧
        lr ≤ now) :
    ∃ tk', (TokenBucket.check now s key limit window).2.data (.tb key) =
        some (.bucket tk' now) ∧ 0 ≤ tk' ∧ tk' ≤ (limit : ℚ) := by
  have hq : (1 : ℚ) ≤ (limit : ℚ) := by exact_mod_cast hlim
  have hfresh : ∀ s1 : Store, ∃ tk',
      (s1.set (.tb key) (.bucket (if (1 : ℚ) ≤ (limit : ℚ) then (limit : ℚ) - 1
          else (limit : ℚ)) now) (some (window * 2)) now).data (.tb key) =
        some (.bucket tk' now) ∧ 0 ≤ tk' ∧ tk' ≤ (limit : ℚ) := by
    intro s1
    refine ⟨if (1 : ℚ) ≤ (limit : ℚ) then (limit : ℚ) - 1 else (limit : ℚ),
      by simp [Store.set, setFn_same], ?_, ?_⟩ <;> rw [if_pos hq] <;> linarith
  cases hex : s.isExpired now (.tb key)
  case true =>
    -- expired: read as fresh `_BucketState(tokens=limit)`, `elapsed = 0`
    have := hfresh (s.evict (.tb key))
    simpa [TokenBucket.check, Store.get, hex, hq] using this
  case false =>
    rcases hinv with hnone | ⟨tk, lr, hdata, htk0, htkl, hlr⟩
    · have := hfresh s
      simpa [TokenBucket.check, Store.get, hex, hnone, hq] using this
    · have hrate : (0 : ℚ) < (limit : ℚ) / window := by positivity
      have h1 : (0 : ℚ) ≤ tk + (now - lr) * ((limit : ℚ) / window) := by
        have : (0 : ℚ) ≤ (now - lr) * ((limit : ℚ) / window) :=
          mul_nonneg (by linarith) (le_of_lt hrate)
        linarith
      refine ⟨if (1 : ℚ) ≤ min (limit : ℚ) (tk + (now - lr) * ((limit : ℚ) / window))
          then min (limit : ℚ) (tk + (now - lr) * ((limit : ℚ) / window)) - 1
          else min (limit : ℚ) (tk + (now - lr) * ((limit : ℚ) / window)), ?_, ?_, ?_⟩
      · simp [TokenBucket.check, Store.get, hex, hdata, Store.set, setFn_same]
      · by_cases hall : (1 : ℚ) ≤ min (limit : ℚ) (tk + (now - lr) * ((limit : ℚ) / window))
        · rw [if_pos hall]
          linarith
        · rw [if_neg hall]
          exact le_min (by linarith) h1
      · by_cases hall : (1 : ℚ) ≤ min (limit : ℚ) (tk + (now - lr) * ((limit : ℚ) / window))
        · rw [if_pos hall]
          have := min_le_left (limit : ℚ) (tk + (now - lr) * ((limit : ℚ) / window))
          linarith
        · rw [if_neg hall]
          exact min_le_left _ _

/-- One `LeakyBucket.check` step: the stored queue stays within
`0 ≤ queue_size ≤ limit` and `last_leak` stays `≤ now`. -/
theorem lb_check_step {s : Store} {key : String} {limit : ℤ} {window now : ℚ}
    (hlim : 1 ≤ limit) (hwin : 0 < window)
    (hinv : s.data (.lb key) = none ∨
      ∃ q ll, s.data (.lb key) = some (.leaky q ll) ∧ 0 ≤ q ∧ q ≤ limit ∧ ll ≤ now) :
    ∃ q' ll', (LeakyBucket.check now s key limit window).2.data (.lb key) =
        some (.leaky q' ll') ∧ 0 ≤ q' ∧ q' ≤ limit ∧ ll' ≤ now := by
  have h0 : (0 : ℤ) < limit := by omega
  have hfresh : ∀ s1 : Store, ∃ q' ll',
      (s1.set (.lb key) (.leaky 1 now) (some (window * 2)) now).data (.lb key) =
        some (.leaky q' ll') ∧ 0 ≤ q' ∧ q' ≤ limit ∧ ll' ≤ now := by
    intro s1
    exact ⟨1, now, by simp [Store.set, setFn_same], by omega, by omega, le_refl now⟩
  cases hex : s.isExpired now (.lb key)
  case true =>
    have := hfresh (s.evict (.lb key))
    simpa [LeakyBucket.check, Store.get, hex, ratTrunc_zero, h0] using this
  case false =>
    rcases hinv with hnone | ⟨q, ll, hdata, hq0, hql, hll⟩
    · have := hfresh s
      simpa [LeakyBucket.check, Store.get, hex, hnone, ratTrunc_zero, h0] using this
    · have hrate : (0 : ℚ) < (limit : ℚ) / window := by positivity
      have hleak0 : 0 ≤ ratTrunc ((now - ll) * ((limit : ℚ) / window)) :=
        ratTrunc_nonneg (mul_nonneg (by linarith) (le_of_lt hrate))
      set leaked := ratTrunc ((now - ll) * ((limit : ℚ) / window)) with hleaked
      refine ⟨if max 0 (q - leaked) < limit then max 0 (q - leaked) + 1
          else max 0 (q - leaked),
        if leaked ≠ 0 then now else ll, ?_, ?_, ?_, ?_⟩
      · simp [LeakyBucket.check, Store.get, hex, hdata, Store.set, setFn_same, hleaked]
      · by_cases hall : max 0 (q - leaked) < limit <;> simp [hall] <;> omega
      · by_cases hall : max 0 (q - leaked) < limit <;> simp [hall] <;> omega
      · by_cases hz : leaked ≠ 0 <;> simp [hz, hll]

/-- State bounds along any single-key token-bucket trace from the empty
store. -/
theorem tb_run_state :
    ∀ (times : List ℚ) (s : Store) (key : String) (limit : ℤ) (window : ℚ),
      1 ≤ limit → 0 < window → times.Pairwise (· ≤ ·) →
      (s.data (.tb key) = none ∨
        ∃ tk lr, s.data (.tb key) = some (.bucket tk lr) ∧ 0 ≤ tk ∧ tk ≤ (limit : ℚ) ∧
          ∀ t ∈ times, lr ≤ t) →
      (runTrace TokenBucket.check key limit window s times).2.data (.tb key) = none ∨
        ∃ tk lr, (runTrace TokenBucket.check key limit window s times).2.data (.tb key) =
          some (.bucket tk lr) ∧ 0 ≤ tk ∧ tk ≤ (limit : ℚ)
  | [], s, key, limit, window, hlim, hwin, hp, hinv => by
    rcases hinv with h | ⟨tk, lr, h, h0, h1, _⟩
    · exact .inl h
    · exact .inr ⟨tk, lr, h, h0, h1⟩
  | t :: ts, s, key, limit, window, hlim, hwin, hp, hinv => by
    rcases List.pairwise_cons.mp hp with ⟨hhead, htail⟩
    have hinv1 : s.data (.tb key) = none ∨
        ∃ tk lr, s.data (.tb key) = some (.bucket tk lr) ∧ 0 ≤ tk ∧ tk ≤ (limit : ℚ) ∧
          lr ≤ t := by
      rcases hinv with h | ⟨tk, lr, h, h0, h1, h2⟩
      · exact .inl h
      · exact .inr ⟨tk, lr, h, h0, h1, h2 t (List.mem_cons_self t ts)⟩
    obtain ⟨tk', hdata', h0', h1'⟩ := tb_check_step hlim hwin hinv1
    have := tb_run_state ts (TokenBucket.check t s key limit window).2 key limit window
      hlim hwin htail (.inr ⟨tk', t, hdata', h0', h1', fun u hu => hhead u hu⟩)
    simpa [runTrace] using this

/-- State bounds along any single-key leaky-bucket trace from the empty
store. -/
theorem lb_run_state :
    ∀ (times : List ℚ) (s : Store) (key : String) (limit : ℤ) (window : ℚ),
      1 ≤ limit → 0 < window → times.Pairwise (· ≤ ·) →
      (s.data (.lb key) = none ∨
        ∃ q ll, s.data (.lb key) = some (.leaky q ll) ∧ 0 ≤ q ∧ q ≤ limit ∧
          ∀ t ∈ times, ll ≤ t) →
      (runTrace LeakyBucket.check key limit window s times).2.data (.lb key) = none ∨
        ∃ q ll, (runTrace LeakyBucket.check key limit window s times).2.data (.lb key) =
          some (.leaky q ll) ∧ 0 ≤ q ∧ q ≤ limit
  | [], s, key, limit, window, hlim, hwin, hp, hinv => by
    rcases hinv with h | ⟨q, ll, h, h0, h1, _⟩
    · exact .inl h
    · exact .inr ⟨q, ll, h, h0, h1⟩
  | t :: ts, s, key, limit, window, hlim, hwin, hp, hinv => by
    rcases List.pairwise_cons.mp hp with ⟨hhead, htail⟩
    have hinv1 : s.data (.lb key) = none ∨
        ∃ q ll, s.data (.lb key) = some (.leaky q ll) ∧ 0 ≤ q ∧ q ≤ limit ∧ ll ≤ t := by
      rcases hinv with h | ⟨q, ll, h, h0, h1, h2⟩
      · exact .inl h
      · exact .inr ⟨q, ll, h, h0, h1, h2 t (List.mem_cons_self t ts)⟩
    obtain ⟨q', ll', hdata', h0', h1', h2'⟩ := lb_check_step hlim hwin hinv1
    have := lb_run_state ts (LeakyBucket.check t s key limit window).2 key limit window
      hlim hwin htail
      (.inr ⟨q', ll', hdata', h0', h1', fun u hu => le_trans h2' (hhead u hu)⟩)
    simpa [runTrace] using this

/-- C4: for `limit ≥ 1` and `window > 0`, along every nondecreasing sequence
of single-key checks from a fresh store, the stored token-bucket state always
satisfies `0 ≤ tokens ≤ limit` (an idle bucket saturates at `limit`, it never
overflows — arbitrary gaps between the times are allowed), and the stored
leaky-bucket state always satisfies `0 ≤ queue_size ≤ limit`. Quantifying
over all traces covers every reachable stored state. -/
theorem c4_bucket_state_bounds :
    ∀ (times : List ℚ) (key : String) (limit : ℤ) (window : ℚ),
      1 ≤ limit → 0 < window → times.Pairwise (· ≤ ·) →
      ((runTrace TokenBucket.check key limit window Store.empty times).2.data (.tb key) =
          none ∨
        ∃ tk lr, (runTrace TokenBucket.check key limit window Store.empty times).2.data
            (.tb key) = some (.bucket tk lr) ∧ 0 ≤ tk ∧ tk ≤ (limit : ℚ)) ∧
      ((runTrace LeakyBucket.check key limit window Store.empty times).2.data (.lb key) =
          none ∨
        ∃ q ll, (runTrace LeakyBucket.check key limit window Store.empty times).2.data
            (.lb key) = some (.leaky q ll) ∧ 0 ≤ q ∧ q ≤ limit) :=
  fun times key limit window hlim hwin hp =>
    ⟨tb_run_state times Store.empty key limit window hlim hwin hp (.inl rfl),
      lb_run_state times Store.empty key limit window hlim hwin hp (.inl rfl)⟩

/-- Witness for C4: a bursty trace with a long idle gap (`window = 2`,
`limit = 2`, times `0, 0, 100, 100, 101`). -/
theorem c4_bucket_state_bounds_witness :
    ((1 : ℤ) ≤ 2 ∧ (0 : ℚ) < 2 ∧ ([0, 0, 100, 100, 101] : List ℚ).Pairwise (· ≤ ·)) ∧
      (((runTrace TokenBucket.check "k" 2 2 Store.empty [0, 0, 100, 100, 101]).2.data
            (.tb "k") = none ∨
          ∃ tk lr, (runTrace TokenBucket.check "k" 2 2 Store.empty
              [0, 0, 100, 100, 101]).2.data (.tb "k") = some (.bucket tk lr) ∧
            0 ≤ tk ∧ tk ≤ ((2 : ℤ) : ℚ)) ∧
        ((runTrace LeakyBucket.check "k" 2 2 Store.empty [0, 0, 100, 100, 101]).2.data
            (.lb "k") = none ∨
          ∃ q ll, (runTrace LeakyBucket.check "k" 2 2 Store.empty
              [0, 0, 100, 100, 101]).2.data (.lb "k") = some (.leaky q ll) ∧
            0 ≤ q ∧ q ≤ 2)) := by
  have hp : ([0, 0, 100, 100, 101] : List ℚ).Pairwise (· ≤ ·) := by
    simp [List.pairwise_cons]
    with_unfolding_all decide
  exact ⟨⟨by decide, by with_unfolding_all decide, hp⟩,
    c4_bucket_state_bounds [0, 0, 100, 100, 101] "k" 2 2 (by decide)
      (by with_unfolding_all decide) hp⟩

/-- Core sliding-window-log conservation argument: during a span `[a,
a+window)` no log entry is ever trimmed, so admissions only ever grow the log
and the log length caps them at `limit`. -/
theorem swl_span_count :
    ∀ (times : List ℚ) (s : Store) (key : String) (limit : ℤ) (window a : ℚ)
      (l : List ℚ),
      0 < window →
      (∀ t ∈ times, a ≤ t ∧ t < a + window) →
      ((s.data (.swl key) = none ∧ s.ttl (.swl key) = none ∧ l = []) ∨
        (s.data (.swl key) = some (.log l) ∧
          ∃ tle, s.ttl (.swl key) = some (tle + window) ∧ a ≤ tle)) →
      (∀ x ∈ l, a ≤ x) →
      (allowedCount (runTrace SlidingWindowLog.check key limit window s times).1 : ℤ) +
          (l.length : ℤ) ≤ max limit (l.length : ℤ)
  | [], s, key, limit, window, a, l, hwin, hspan, hinv, hent => by
    simp [runTrace, allowedCount]
  | t :: ts, s, key, limit, window, a, l, hwin, hspan, hinv, hent => by
    obtain ⟨hat, htw⟩ := hspan t (List.mem_cons_self t ts)
    have hnotrim : l.dropWhile (fun x => decide (x ≤ t - window)) = l :=
      dropWhile_le_eq_self fun x hx => by have := hent x hx; linarith
    have hstep : (SlidingWindowLog.check t s key limit window).1.allowed =
          decide ((l.length : ℤ) < limit) ∧
        (SlidingWindowLog.check t s key limit window).2.data (.swl key) =
          some (.log (if (l.length : ℤ) < limit then l ++ [t] else l)) ∧
        (SlidingWindowLog.check t s key limit window).2.ttl (.swl key) =
          some (t + window) := by
      rcases hinv with ⟨hd, ht, hl⟩ | ⟨hd, tle, ht, hta⟩
      · have hexp : s.isExpired t (.swl key) = false := Store.isExpired_of_ttl_none s t _ ht
        subst hl
        refine ⟨?_, ?_, ?_⟩ <;>
          simp [SlidingWindowLog.check, Store.get, hexp, hd, Store.set, setFn_same]
      · have hexp : s.isExpired t (.swl key) = false := by
          simp only [Store.isExpired, ht]
          exact decide_eq_false (by linarith)
        refine ⟨?_, ?_, ?_⟩ <;>
          simp [SlidingWindowLog.check, Store.get, hexp, hd, hnotrim, Store.set, setFn_same]
    obtain ⟨hal, hdat, httl⟩ := hstep
    have hcons : (allowedCount
        (runTrace SlidingWindowLog.check key limit window s (t :: ts)).1 : ℤ) =
        (if (SlidingWindowLog.check t s key limit window).1.allowed then 1 else 0) +
          (allowedCount (runTrace SlidingWindowLog.check key limit window
            (SlidingWindowLog.check t s key limit window).2 ts).1 : ℤ) := by
      simp [runTrace, allowedCount_cons]
    have hspan' : ∀ u ∈ ts, a ≤ u ∧ u < a + window :=
      fun u hu => hspan u (List.mem_cons_of_mem t hu)
    by_cases hlt : (l.length : ℤ) < limit
    · have hih := swl_span_count ts (SlidingWindowLog.check t s key limit window).2 key
        limit window a (l ++ [t]) hwin hspan'
        (.inr ⟨by rw [hdat, if_pos hlt], t, httl, hat⟩)
        (fun x hx => by
          rcases List.mem_append.mp hx with h | h
          · exact hent x h
          · rw [List.mem_singleton.mp h]; exact hat)
      simp only [List.length_append, List.length_singleton, Nat.cast_add, Nat.cast_one] at hih
      have hmax : max limit ((l.length : ℤ) + 1) = limit := max_eq_left (by omega)
      rw [hmax] at hih
      rw [hcons, hal]
      simp [hlt]
      omega
    · have hih := swl_span_count ts (SlidingWindowLog.check t s key limit window).2 key
        limit window a l hwin hspan'
        (.inr ⟨by rw [hdat, if_neg hlt], t, httl, hat⟩) hent
      rw [hcons, hal]
      simp [hlt]
      omega

/-- One `FixedWindow.check` step during a span: the hit slot's counter
increments (and its TTL stays beyond the span), other slots are untouched,
and the capped counter `fwPhi` grows by at least the admission indicator
while staying `≤ limit`. -/
theorem fw_check_step {s : Store} {key : String} {limit : ℤ} {window now a : ℚ}
    (hlim : 1 ≤ limit) (ha : a ≤ now) (hw : now < a + window)
    (hinv : FwInv s key a window (ratTrunc (now / window))) :
    FwInv (FixedWindow.check now s key limit window).2 key a window
        (ratTrunc (now / window)) ∧
      (∀ σ', σ' ≠ ratTrunc (now / window) →
        (FixedWindow.check now s key limit window).2.data (.fw key σ') =
            s.data (.fw key σ') ∧
          (FixedWindow.check now s key limit window).2.ttl (.fw key σ') =
            s.ttl (.fw key σ')) ∧
      fwPhi s key limit (ratTrunc (now / window)) +
          (if (FixedWindow.check now s key limit window).1.allowed then 1 else 0) ≤
        fwPhi (FixedWindow.check now s key limit window).2 key limit
          (ratTrunc (now / window)) ∧
      fwPhi (FixedWindow.check now s key limit window).2 key limit
          (ratTrunc (now / window)) ≤ limit := by
  have hframe : ∀ σ', σ' ≠ ratTrunc (now / window) →
      (FixedWindow.check now s key limit window).2.data (.fw key σ') =
          s.data (.fw key σ') ∧
        (FixedWindow.check now s key limit window).2.ttl (.fw key σ') =
          s.ttl (.fw key σ') := by
    intro σ' hσ'
    cases hex : s.isExpired now (.fw key (ratTrunc (now / window))) <;>
      constructor <;>
        simp [FixedWindow.check, Store.incr, Store.set, Store.evict, setFn, hex, hσ'] <;>
          split <;> simp [setFn, hσ']
  rcases hinv with hd | ⟨n, hd, hn0, e, he, hea⟩
  · -- absent slot key: the counter becomes 1 and gets the span-covering TTL
    have hdata' : (FixedWindow.check now s key limit window).2.data
        (.fw key (ratTrunc (now / window))) = some (.int 1) := by
      cases hex : s.isExpired now (.fw key (ratTrunc (now / window))) <;>
        simp [FixedWindow.check, Store.incr, Store.set, Store.evict, setFn, hex, hd]
    have httl' : (FixedWindow.check now s key limit window).2.ttl
        (.fw key (ratTrunc (now / window))) = some (now + window) := by
      cases hex : s.isExpired now (.fw key (ratTrunc (now / window))) <;>
        simp [FixedWindow.check, Store.incr, Store.set, Store.evict, setFn, hex, hd]
    have hallow : (FixedWindow.check now s key limit window).1.allowed = true := by
      cases hex : s.isExpired now (.fw key (ratTrunc (now / window))) <;>
        simp [FixedWindow.check, Store.incr, Store.set, Store.evict, setFn, hex, hd, hlim]
    refine ⟨.inr ⟨1, hdata', by omega, now + window, httl', by linarith⟩, hframe, ?_, ?_⟩ <;>
      simp [fwPhi, fwCount, hd, hdata', hallow] <;> omega
  · -- live counter: not expired, counter goes `n → n+1`, TTL preserved or
    -- rewritten to `now + window`
    have hex : s.isExpired now (.fw key (ratTrunc (now / window))) = false := by
      simp only [Store.isExpired, he]
      exact decide_eq_false (by linarith)
    have hdata' : (FixedWindow.check now s key limit window).2.data
        (.fw key (ratTrunc (now / window))) = some (.int (n + 1)) := by
      simp [FixedWindow.check, Store.incr, Store.set, setFn, hex, hd]
    have hallow : (FixedWindow.check now s key limit window).1.allowed =
        decide (n + 1 ≤ limit) := by
      simp [FixedWindow.check, Store.incr, Store.set, setFn, hex, hd]
    have httl' : (FixedWindow.check now s key limit window).2.ttl
          (.fw key (ratTrunc (now / window))) = some (now + window) ∨
        (FixedWindow.check now s key limit window).2.ttl
          (.fw key (ratTrunc (now / window))) = some e := by
      by_cases hone : n + 1 = 1
      · left
        simp [FixedWindow.check, Store.incr, Store.set, setFn, hex, hd, hone]
      · right
        simp [FixedWindow.check, Store.incr, Store.set, setFn, hex, hd, hone, he]
    refine ⟨.inr ⟨n + 1, hdata', by omega, ?_⟩, hframe, ?_, ?_⟩
    · rcases httl' with h | h
      · exact ⟨now + window, h, by linarith⟩
      · exact ⟨e, h, hea⟩
    · rcases le_or_lt (n + 1) limit with hle | hgt
      · simp [fwPhi, fwCount, hd, hdata', hallow, hle]
        try omega
      · simp [fwPhi, fwCount, hd, hdata', hallow]
        try omega
    · simp [fwPhi, fwCount, hdata']

/-- Potential argument for fixed-window traces whose slots all lie in
`{sa, sb}`: admissions are bounded by `2·limit` minus the capped counters. -/
theorem fw_span_count_two :
    ∀ (times : List ℚ) (s : Store) (key : String) (limit : ℤ) (window a : ℚ) (sa sb : ℤ),
      1 ≤ limit →
      (∀ t ∈ times, a ≤ t ∧ t < a + window) →
      (∀ t ∈ times, ratTrunc (t / window) = sa ∨ ratTrunc (t / window) = sb) →
      FwInv s key a window sa → FwInv s key a window sb →
      (allowedCount (runTrace FixedWindow.check key limit window s times).1 : ℤ) +
          fwPhi s key limit sa + fwPhi s key limit sb ≤ 2 * limit
  | [], s, key, limit, window, a, sa, sb, hlim, hspan, hslots, hia, hib => by
    have h1 : fwPhi s key limit sa ≤ limit := min_le_left _ _
    have h2 : fwPhi s key limit sb ≤ limit := min_le_left _ _
    simp [runTrace, allowedCount]
    omega
  | t :: ts, s, key, limit, window, a, sa, sb, hlim, hspan, hslots, hia, hib => by
    obtain ⟨hat, htw⟩ := hspan t (List.mem_cons_self t ts)
    have hspan' : ∀ u ∈ ts, a ≤ u ∧ u < a + window :=
      fun u hu => hspan u (List.mem_cons_of_mem t hu)
    have hslots' : ∀ u ∈ ts, ratTrunc (u / window) = sa ∨ ratTrunc (u / window) = sb :=
      fun u hu => hslots u (List.mem_cons_of_mem t hu)
    have hcons : (allowedCount
        (runTrace FixedWindow.check key limit window s (t :: ts)).1 : ℤ) =
        (if (FixedWindow.check t s key limit window).1.allowed then 1 else 0) +
          (allowedCount (runTrace FixedWindow.check key limit window
            (FixedWindow.check t s key limit window).2 ts).1 : ℤ) := by
      simp [runTrace, allowedCount_cons]
    rcases hslots t (List.mem_cons_self t ts) with hs | hs
    · -- the call hits slot `sa`
      have hinvt : FwInv s key a window (ratTrunc (t / window)) := by rw [hs]; exact hia
      obtain ⟨hinv', hframe, hphi, hphile⟩ := fw_check_step hlim hat htw hinvt
      rw [hs] at hinv' hphi hphile
      have hia' : FwInv (FixedWindow.check t s key limit window).2 key a window sa := hinv'
      have hib' : FwInv (FixedWindow.check t s key limit window).2 key a window sb := by
        by_cases hy : sb = ratTrunc (t / window)
        · rw [hy, hs]
          exact hinv'
        · obtain ⟨hfd, hft⟩ := hframe sb hy
          unfold FwInv at hib ⊢
          rw [hfd, hft]
          exact hib
      have hih := fw_span_count_two ts (FixedWindow.check t s key limit window).2 key
        limit window a sa sb hlim hspan' hslots' hia' hib'
      by_cases hy : sb = ratTrunc (t / window)
      · have hba : sb = sa := by rw [hy, hs]
        subst hba
        rw [hcons]
        cases hb : (FixedWindow.check t s key limit window).1.allowed <;>
          simp [hb] at hphi ⊢ <;> omega
      · have hpy : fwPhi (FixedWindow.check t s key limit window).2 key limit sb =
            fwPhi s key limit sb := by
          unfold fwPhi fwCount
          rw [(hframe sb hy).1]
        rw [hcons]
        rw [hpy] at hih
        cases hb : (FixedWindow.check t s key limit window).1.allowed <;>
          simp [hb] at hphi ⊢ <;> omega
    · -- the call hits slot `sb`
      have hinvt : FwInv s key a window (ratTrunc (t / window)) := by rw [hs]; exact hib
      obtain ⟨hinv', hframe, hphi, hphile⟩ := fw_check_step hlim hat htw hinvt
      rw [hs] at hinv' hphi hphile
      have hib' : FwInv (FixedWindow.check t s key limit window).2 key a window sb := hinv'
      have hia' : FwInv (FixedWindow.check t s key limit window).2 key a window sa := by
        by_cases hy : sa = ratTrunc (t / window)
        · rw [hy, hs]
          exact hinv'
        · obtain ⟨hfd, hft⟩ := hframe sa hy
          unfold FwInv at hia ⊢
          rw [hfd, hft]
          exact hia
      have hih := fw_span_count_two ts (FixedWindow.check t s key limit window).2 key
        limit window a sa sb hlim hspan' hslots' hia' hib'
      by_cases hy : sa = ratTrunc (t / window)
      · have hba : sa = sb := by rw [hy, hs]
        subst hba
        rw [hcons]
        cases hb : (FixedWindow.check t s key limit window).1.allowed <;>
          simp [hb] at hphi ⊢ <;> omega
      · have hpy : fwPhi (FixedWindow.check t s key limit window).2 key limit sa =
            fwPhi s key limit sa := by
          unfold fwPhi fwCount
          rw [(hframe sa hy).1]
        rw [hcons]
        rw [hpy] at hih
        cases hb : (FixedWindow.check t s key limit window).1.allowed <;>
          simp [hb] at hphi ⊢ <;> omega

/-- Single-slot potential argument: a fixed-window trace staying inside one
slot admits at most `limit` requests. -/
theorem fw_slot_count :
    ∀ (times : List ℚ) (s : Store) (key : String) (limit : ℤ) (window a : ℚ) (sa : ℤ),
      1 ≤ limit →
      (∀ t ∈ times, a ≤ t ∧ t < a + window) →
      (∀ t ∈ times, ratTrunc (t / window) = sa) →
      FwInv s key a window sa →
      (allowedCount (runTrace FixedWindow.check key limit window s times).1 : ℤ) +
          fwPhi s key limit sa ≤ limit
  | [], s, key, limit, window, a, sa, hlim, hspan, hslots, hia => by
    have h1 : fwPhi s key limit sa ≤ limit := min_le_left _ _
    simp [runTrace, allowedCount]
    omega
  | t :: ts, s, key, limit, window, a, sa, hlim, hspan, hslots, hia => by
    obtain ⟨hat, htw⟩ := hspan t (List.mem_cons_self t ts)
    have hspan' : ∀ u ∈ ts, a ≤ u ∧ u < a + window :=
      fun u hu => hspan u (List.mem_cons_of_mem t hu)
    have hslots' : ∀ u ∈ ts, ratTrunc (u / window) = sa :=
      fun u hu => hslots u (List.mem_cons_of_mem t hu)
    have hcons : (allowedCount
        (runTrace FixedWindow.check key limit window s (t :: ts)).1 : ℤ) =
        (if (FixedWindow.check t s key limit window).1.allowed then 1 else 0) +
          (allowedCount (runTrace FixedWindow.check key limit window
            (FixedWindow.check t s key limit window).2 ts).1 : ℤ) := by
      simp [runTrace, allowedCount_cons]
    have hs := hslots t (List.mem_cons_self t ts)
    have hinvt : FwInv s key a window (ratTrunc (t / window)) := by rw [hs]; exact hia
    obtain ⟨hinv', hframe, hphi, hphile⟩ := fw_check_step hlim hat htw hinvt
    rw [hs] at hinv' hphi hphile
    have hih := fw_slot_count ts (FixedWindow.check t s key limit window).2 key
      limit window a sa hlim hspan' hslots' hinv'
    rw [hcons]
    cases hb : (FixedWindow.check t s key limit window).1.allowed <;>
      simp [hb] at hphi ⊢ <;> omega

/-- Budget argument for token-bucket traces inside a closed span
`[a, a+window]`: admissions never exceed current tokens plus what can still
refill before the span ends. -/
theorem tb_span_count :
    ∀ (times : List ℚ) (s : Store) (key : String) (limit : ℤ) (window a : ℚ),
      1 ≤ limit → 0 < window →
      (∀ t ∈ times, a ≤ t ∧ t ≤ a + window) →
      times.Pairwise (· ≤ ·) →
      ((s.data (.tb key) = none ∧ s.ttl (.tb key) = none) ∨
        ∃ tk lr, s.data (.tb key) = some (.bucket tk lr) ∧ 0 ≤ tk ∧
          s.ttl (.tb key) = some (lr + window * 2) ∧ a ≤ lr ∧ lr ≤ a + window ∧
          ∀ u ∈ times, lr ≤ u) →
      (allowedCount (runTrace TokenBucket.check key limit window s times).1 : ℚ) ≤
        tbBudget s key limit window a
  | [], s, key, limit, window, a, hlim, hwin, hspan, hp, hinv => by
    have hq : (1 : ℚ) ≤ (limit : ℚ) := by exact_mod_cast hlim
    have hrate : (0 : ℚ) < (limit : ℚ) / window := by positivity
    rcases hinv with ⟨hd, _⟩ | ⟨tk, lr, hd, htk, _, _, hlw, _⟩ <;>
      simp [runTrace, allowedCount, tbBudget, hd]
    · nlinarith
    · nlinarith [mul_nonneg (show (0:ℚ) ≤ a + window - lr by linarith) (le_of_lt hrate)]
  | t :: ts, s, key, limit, window, a, hlim, hwin, hspan, hp, hinv => by
    have hq : (1 : ℚ) ≤ (limit : ℚ) := by exact_mod_cast hlim
    have hrate : (0 : ℚ) < (limit : ℚ) / window := by positivity
    obtain ⟨hat, htw⟩ := hspan t (List.mem_cons_self t ts)
    rcases List.pairwise_cons.mp hp with ⟨hhead, htail⟩
    have hspan' : ∀ u ∈ ts, a ≤ u ∧ u ≤ a + window :=
      fun u hu => hspan u (List.mem_cons_of_mem t hu)
    have hcons : allowedCount
        (runTrace TokenBucket.check key limit window s (t :: ts)).1 =
        (if (TokenBucket.check t s key limit window).1.allowed then 1 else 0) +
          allowedCount (runTrace TokenBucket.check key limit window
            (TokenBucket.check t s key limit window).2 ts).1 := by
      simp [runTrace, allowedCount_cons]
    rcases hinv with ⟨hd, ht⟩ | ⟨tk, lr, hd, htk, ht, hal, hlw, hfut⟩
    · -- fresh key: bucket appears full, one token debited
      have hexp : s.isExpired t (.tb key) = false := Store.isExpired_of_ttl_none s t _ ht
      have hdata' : (TokenBucket.check t s key limit window).2.data (.tb key) =
          some (.bucket ((limit : ℚ) - 1) t) := by
        simp [TokenBucket.check, Store.get, hexp, hd, Store.set, setFn_same, hq]
      have httl' : (TokenBucket.check t s key limit window).2.ttl (.tb key) =
          some (t + window * 2) := by
        simp [TokenBucket.check, Store.get, hexp, hd, Store.set, setFn_same]
      have hallow : (TokenBucket.check t s key limit window).1.allowed = true := by
        simp [TokenBucket.check, Store.get, hexp, hd, hq]
      have hih := tb_span_count ts (TokenBucket.check t s key limit window).2 key limit
        window a hlim hwin hspan' htail
        (.inr ⟨(limit : ℚ) - 1, t, hdata', by linarith, httl', hat, htw, hhead⟩)
      have hbud : tbBudget (TokenBucket.check t s key limit window).2 key limit window a =
          ((limit : ℚ) - 1) + (a + window - t) * ((limit : ℚ) / window) := by
        unfold tbBudget
        rw [hdata']
      rw [hbud] at hih
      have hbudFresh : tbBudget s key limit window a =
          (limit : ℚ) + window * ((limit : ℚ) / window) := by
        unfold tbBudget
        rw [hd]
      rw [hcons, hbudFresh]
      push_cast
      simp only [hallow, if_true]
      have hnp : (a - t) * ((limit : ℚ) / window) ≤ 0 :=
        mul_nonpos_of_nonpos_of_nonneg (by linarith) (le_of_lt hrate)
      nlinarith
    · -- stored bucket: refill then possibly debit
      have hexp : s.isExpired t (.tb key) = false := by
        simp only [Store.isExpired, ht]
        exact decide_eq_false (by linarith)
      have hdata' : (TokenBucket.check t s key limit window).2.data (.tb key) =
          some (.bucket (if (1 : ℚ) ≤ min (limit : ℚ)
              (tk + (t - lr) * ((limit : ℚ) / window))
            then min (limit : ℚ) (tk + (t - lr) * ((limit : ℚ) / window)) - 1
            else min (limit : ℚ) (tk + (t - lr) * ((limit : ℚ) / window))) t) := by
        simp [TokenBucket.check, Store.get, hexp, hd, Store.set, setFn_same]
      have httl' : (TokenBucket.check t s key limit window).2.ttl (.tb key) =
          some (t + window * 2) := by
        simp [TokenBucket.check, Store.get, hexp, hd, Store.set, setFn_same]
      have hallow : (TokenBucket.check t s key limit window).1.allowed =
          decide ((1 : ℚ) ≤ min (limit : ℚ) (tk + (t - lr) * ((limit : ℚ) / window))) := by
        simp [TokenBucket.check, Store.get, hexp, hd]
      have hlr : lr ≤ t := hfut t (List.mem_cons_self t ts)
      have htok0 : (0 : ℚ) ≤ min (limit : ℚ) (tk + (t - lr) * ((limit : ℚ) / window)) :=
        le_min (by linarith)
          (by nlinarith [mul_nonneg (show (0:ℚ) ≤ t - lr by linarith) (le_of_lt hrate)])
      have htokle : min (limit : ℚ) (tk + (t - lr) * ((limit : ℚ) / window)) ≤
          tk + (t - lr) * ((limit : ℚ) / window) := min_le_right _ _
      have hbudget : tbBudget s key limit window a =
          tk + (a + window - lr) * ((limit : ℚ) / window) := by
        unfold tbBudget
        rw [hd]
      by_cases hone : (1 : ℚ) ≤ min (limit : ℚ) (tk + (t - lr) * ((limit : ℚ) / window))
      · rw [if_pos hone] at hdata'
        have hih := tb_span_count ts (TokenBucket.check t s key limit window).2 key limit
          window a hlim hwin hspan' htail
          (.inr ⟨_, t, hdata', by linarith, httl', hat, htw, hhead⟩)
        have hbud' : tbBudget (TokenBucket.check t s key limit window).2 key limit
            window a = (min (limit : ℚ) (tk + (t - lr) * ((limit : ℚ) / window)) - 1) +
              (a + window - t) * ((limit : ℚ) / window) := by
          unfold tbBudget
          rw [hdata']
        rw [hbud'] at hih
        rw [hcons, hbudget]
        push_cast
        simp only [hallow, decide_eq_true hone, if_true]
        have hsplit : (t - lr) * ((limit : ℚ) / window) +
            (a + window - t) * ((limit : ℚ) / window) =
            (a + window - lr) * ((limit : ℚ) / window) := by ring
        nlinarith
      · rw [if_neg hone] at hdata'
        have hih := tb_span_count ts (TokenBucket.check t s key limit window).2 key limit
          window a hlim hwin hspan' htail
          (.inr ⟨_, t, hdata', htok0, httl', hat, htw, hhead⟩)
        have hbud' : tbBudget (TokenBucket.check t s key limit window).2 key limit
            window a = min (limit : ℚ) (tk + (t - lr) * ((limit : ℚ) / window)) +
              (a + window - t) * ((limit : ℚ) / window) := by
          unfold tbBudget
          rw [hdata']
        rw [hbud'] at hih
        rw [hcons, hbudget]
        push_cast
        simp only [hallow, decide_eq_false hone, Bool.false_eq_true, if_false]
        have hsplit : (t - lr) * ((limit : ℚ) / window) +
            (a + window - t) * ((limit : ℚ) / window) =
            (a + window - lr) * ((limit : ℚ) / window) := by ring
        nlinarith

/-- Budget argument for leaky-bucket traces inside a closed span
`[a, a+window]`: admissions never exceed the free queue slots plus what can
still drain before the span ends. -/
theorem lb_span_count :
    ∀ (times : List ℚ) (s : Store) (key : String) (limit : ℤ) (window a : ℚ),
      1 ≤ limit → 0 < window →
      (∀ t ∈ times, a ≤ t ∧ t ≤ a + window) →
      times.Pairwise (· ≤ ·) →
      ((s.data (.lb key) = none ∧ s.ttl (.lb key) = none) ∨
        ∃ q ll e, s.data (.lb key) = some (.leaky q ll) ∧ 0 ≤ q ∧ q ≤ limit ∧
          s.ttl (.lb key) = some e ∧ a + window * 2 ≤ e ∧ a ≤ ll ∧ ll ≤ a + window ∧
          ∀ u ∈ times, ll ≤ u) →
      (allowedCount (runTrace LeakyBucket.check key limit window s times).1 : ℤ) ≤
        lbBudget s key limit window a
  | [], s, key, limit, window, a, hlim, hwin, hspan, hp, hinv => by
    have hrate : (0 : ℚ) < (limit : ℚ) / window := by positivity
    rcases hinv with ⟨hd, _⟩ | ⟨q, ll, e, hd, hq0, hql, _, _, _, hlw, _⟩ <;>
      simp [runTrace, allowedCount, lbBudget, hd]
    · omega
    · have hfl : 0 ≤ ⌊(a + window - ll) * ((limit : ℚ) / window)⌋ :=
        Int.floor_nonneg.mpr
          (mul_nonneg (by linarith) (le_of_lt hrate))
      omega
  | t :: ts, s, key, limit, window, a, hlim, hwin, hspan, hp, hinv => by
    have h0 : (0 : ℤ) < limit := by omega
    have hrate : (0 : ℚ) < (limit : ℚ) / window := by positivity
    obtain ⟨hat, htw⟩ := hspan t (List.mem_cons_self t ts)
    rcases List.pairwise_cons.mp hp with ⟨hhead, htail⟩
    have hspan' : ∀ u ∈ ts, a ≤ u ∧ u ≤ a + window :=
      fun u hu => hspan u (List.mem_cons_of_mem t hu)
    have hcons : allowedCount
        (runTrace LeakyBucket.check key limit window s (t :: ts)).1 =
        (if (LeakyBucket.check t s key limit window).1.allowed then 1 else 0) +
          allowedCount (runTrace LeakyBucket.check key limit window
            (LeakyBucket.check t s key limit window).2 ts).1 := by
      simp [runTrace, allowedCount_cons]
    have hwr : window * ((limit : ℚ) / window) = (limit : ℚ) := by
      field_simp
    rcases hinv with ⟨hd, ht⟩ | ⟨q, ll, e, hd, hq0, hql, ht, hea, hal, hlw, hfut⟩
    · -- fresh key: queue goes 0 → 1
      have hexp : s.isExpired t (.lb key) = false := Store.isExpired_of_ttl_none s t _ ht
      have hdata' : (LeakyBucket.check t s key limit window).2.data (.lb key) =
          some (.leaky 1 t) := by
        simp [LeakyBucket.check, Store.get, hexp, hd, Store.set, setFn_same,
          ratTrunc_zero, h0]
      have httl' : (LeakyBucket.check t s key limit window).2.ttl (.lb key) =
          some (t + window * 2) := by
        simp [LeakyBucket.check, Store.get, hexp, hd, Store.set, setFn_same]
      have hallow : (LeakyBucket.check t s key limit window).1.allowed = true := by
        simp [LeakyBucket.check, Store.get, hexp, hd, ratTrunc_zero, h0]
      have hih := lb_span_count ts (LeakyBucket.check t s key limit window).2 key limit
        window a hlim hwin hspan' htail
        (.inr ⟨1, t, t + window * 2, hdata', by omega, hlim, httl', by linarith, hat, htw,
          hhead⟩)
      have hbud' : lbBudget (LeakyBucket.check t s key limit window).2 key limit window a =
          (limit - 1) + ⌊(a + window - t) * ((limit : ℚ) / window)⌋ := by
        unfold lbBudget
        rw [hdata']
      have hbudFresh : lbBudget s key limit window a = 2 * limit := by
        unfold lbBudget
        rw [hd]
      have hfl : ⌊(a + window - t) * ((limit : ℚ) / window)⌋ ≤ limit := by
        have h1 : (a + window - t) * ((limit : ℚ) / window) ≤
            window * ((limit : ℚ) / window) :=
          mul_le_mul_of_nonneg_right (by linarith) (le_of_lt hrate)
        rw [hwr] at h1
        calc ⌊(a + window - t) * ((limit : ℚ) / window)⌋ ≤ ⌊(limit : ℚ)⌋ :=
              Int.floor_le_floor h1
          _ = limit := Int.floor_intCast limit
      rw [hbud'] at hih
      rw [hcons, hbudFresh]
      push_cast
      simp only [hallow, if_true]
      omega
    · -- stored queue: drain then possibly enqueue
      have hexp : s.isExpired t (.lb key) = false := by
        simp only [Store.isExpired, ht]
        exact decide_eq_false (by linarith)
      have hlt : ll ≤ t := hfut t (List.mem_cons_self t ts)
      have hargnn : (0 : ℚ) ≤ (t - ll) * ((limit : ℚ) / window) :=
        mul_nonneg (by linarith) (le_of_lt hrate)
      have hLfloor : ratTrunc ((t - ll) * ((limit : ℚ) / window)) =
          ⌊(t - ll) * ((limit : ℚ) / window)⌋ := ratTrunc_eq_floor hargnn
      have hL0 : 0 ≤ ratTrunc ((t - ll) * ((limit : ℚ) / window)) :=
        ratTrunc_nonneg hargnn
      have hdata' : (LeakyBucket.check t s key limit window).2.data (.lb key) =
          some (.leaky
            (if max 0 (q - ratTrunc ((t - ll) * ((limit : ℚ) / window))) < limit
              then max 0 (q - ratTrunc ((t - ll) * ((limit : ℚ) / window))) + 1
              else max 0 (q - ratTrunc ((t - ll) * ((limit : ℚ) / window))))
            (if ratTrunc ((t - ll) * ((limit : ℚ) / window)) ≠ 0 then t else ll)) := by
        simp [LeakyBucket.check, Store.get, hexp, hd, Store.set, setFn_same]
      have httl' : (LeakyBucket.check t s key limit window).2.ttl (.lb key) =
          some (t + window * 2) := by
        simp [LeakyBucket.check, Store.get, hexp, hd, Store.set, setFn_same]
      have hallow : (LeakyBucket.check t s key limit window).1.allowed =
          decide (max 0 (q - ratTrunc ((t - ll) * ((limit : ℚ) / window))) < limit) := by
        simp [LeakyBucket.check, Store.get, hexp, hd]
      have hbudget : lbBudget s key limit window a =
          (limit - q) + ⌊(a + window - ll) * ((limit : ℚ) / window)⌋ := by
        unfold lbBudget
        rw [hd]
      have hinv' : (LeakyBucket.check t s key limit window).2.data (.lb key) = none ∧
            (LeakyBucket.check t s key limit window).2.ttl (.lb key) = none ∨
          ∃ q' ll' e', (LeakyBucket.check t s key limit window).2.data (.lb key) =
              some (.leaky q' ll') ∧ 0 ≤ q' ∧ q' ≤ limit ∧
            (LeakyBucket.check t s key limit window).2.ttl (.lb key) = some e' ∧
            a + window * 2 ≤ e' ∧ a ≤ ll' ∧ ll' ≤ a + window ∧ ∀ u ∈ ts, ll' ≤ u := by
        refine .inr ⟨_, _, t + window * 2, hdata', ?_, ?_, httl', by linarith, ?_, ?_, ?_⟩
        · by_cases hc : max 0 (q - ratTrunc ((t - ll) * ((limit : ℚ) / window))) < limit <;>
            simp [hc] <;> omega
        · by_cases hc : max 0 (q - ratTrunc ((t - ll) * ((limit : ℚ) / window))) < limit <;>
            simp [hc] <;> omega
        · by_cases hz : ratTrunc ((t - ll) * ((limit : ℚ) / window)) ≠ 0 <;> simp [hz] <;>
            linarith
        · by_cases hz : ratTrunc ((t - ll) * ((limit : ℚ) / window)) ≠ 0 <;> simp [hz] <;>
            linarith
        · intro u hu
          by_cases hz : ratTrunc ((t - ll) * ((limit : ℚ) / window)) ≠ 0 <;> simp [hz]
          · exact hhead u hu
          · exact le_trans hlt (hhead u hu)
      have hih := lb_span_count ts (LeakyBucket.check t s key limit window).2 key limit
        window a hlim hwin hspan' htail hinv'
      have hbud' : lbBudget (LeakyBucket.check t s key limit window).2 key limit window a =
          (limit - (if max 0 (q - ratTrunc ((t - ll) * ((limit : ℚ) / window))) < limit
              then max 0 (q - ratTrunc ((t - ll) * ((limit : ℚ) / window))) + 1
              else max 0 (q - ratTrunc ((t - ll) * ((limit : ℚ) / window))))) +
            ⌊(a + window - (if ratTrunc ((t - ll) * ((limit : ℚ) / window)) ≠ 0
              then t else ll)) * ((limit : ℚ) / window)⌋ := by
        unfold lbBudget
        rw [hdata']
      rw [hbud'] at hih
      rw [hcons, hbudget]
      push_cast
      rw [hallow]
      have hsuper : ⌊(t - ll) * ((limit : ℚ) / window)⌋ +
          ⌊(a + window - t) * ((limit : ℚ) / window)⌋ ≤
          ⌊(a + window - ll) * ((limit : ℚ) / window)⌋ := by
        have := floor_add_floor_le ((t - ll) * ((limit : ℚ) / window))
          ((a + window - t) * ((limit : ℚ) / window))
        have harg : (t - ll) * ((limit : ℚ) / window) +
            (a + window - t) * ((limit : ℚ) / window) =
            (a + window - ll) * ((limit : ℚ) / window) := by ring
        rw [harg] at this
        exact this
      by_cases hz : ratTrunc ((t - ll) * ((limit : ℚ) / window)) ≠ 0
      · rw [if_pos hz] at hih
        rw [hLfloor] at hih hz ⊢
        by_cases hc : max 0 (q - ⌊(t - ll) * ((limit : ℚ) / window)⌋) < limit
        · rw [if_pos hc] at hih
          simp only [hLfloor, hc, decide_True, if_true]
          omega
        · rw [if_neg hc] at hih
          simp only [hLfloor, hc, decide_False, Bool.false_eq_true, if_false]
          omega
      · rw [if_neg hz] at hih
        push_neg at hz
        rw [hLfloor] at hz hih ⊢
        rw [hz] at hih ⊢
        by_cases hc : max 0 (q - (0 : ℤ)) < limit
        · rw [if_pos hc] at hih
          simp only [hz, hc, decide_True, if_true]
          omega
        · rw [if_neg hc] at hih
          simp only [hz, hc, decide_False, Bool.false_eq_true, if_false]
          omega

/-- C1 counterexample: the claim as stated fails on the code. With `limit=2`,
`window=2`, the token bucket allows 3 requests at times `0, 0, 1` — all inside
one window-length span `[0, 2)` — because it refills during the span; the
leaky bucket likewise drains and admits 3. And FixedWindow with `limit=1`,
`window=60` admits 2 = `2·limit` requests at `59, 60` (span `[59, 119)`
straddling the slot boundary), exceeding the claimed `2·limit - 1 = 1`. -/
theorem c1_counterexample_span_bounds :
    allowedCount (runTrace TokenBucket.check "k" 2 2 Store.empty [0, 0, 1]).1 = 3 ∧
      ([0, 0, 1] : List ℚ).all (fun t => decide (0 ≤ t ∧ t < 0 + 2)) = true ∧
      allowedCount (runTrace LeakyBucket.check "k" 2 2 Store.empty [0, 0, 1]).1 = 3 ∧
      allowedCount (runTrace FixedWindow.check "k" 1 60 Store.empty [59, 60]).1 = 2 ∧
      ([59, 60] : List ℚ).all (fun t => decide (59 ≤ t ∧ t < 59 + 60)) = true := by
  refine ⟨?_, ?_, ?_, ?_, ?_⟩ <;> with_unfolding_all decide

/-- C1 (amended): for `limit ≥ 1`, `window > 0` and any nondecreasing
sequence of single-key check times inside one window-length span
`[a, a+window)` (`a ≥ 0`), starting from a fresh store: SlidingWindowLog
allows at most `limit`; FixedWindow allows at most `limit` while the span
stays in one slot and at most `2·limit` in general (the boundary burst
reaches `2·limit`, not `2·limit - 1`); TokenBucket and LeakyBucket, which
refill/drain during the span, also allow at most `2·limit`. -/
theorem c1_amended_span_bounds :
    ∀ (times : List ℚ) (key : String) (limit : ℤ) (window a : ℚ),
      1 ≤ limit → 0 < window → 0 ≤ a →
      times.Pairwise (· ≤ ·) →
      (∀ t ∈ times, a ≤ t ∧ t < a + window) →
      ((allowedCount (runTrace SlidingWindowLog.check key limit window Store.empty
          times).1 : ℤ) ≤ limit) ∧
        ((allowedCount (runTrace FixedWindow.check key limit window Store.empty
          times).1 : ℤ) ≤ 2 * limit) ∧
        ((∀ t ∈ times, ratTrunc (t / window) = ratTrunc (a / window)) →
          (allowedCount (runTrace FixedWindow.check key limit window Store.empty
            times).1 : ℤ) ≤ limit) ∧
        ((allowedCount (runTrace TokenBucket.check key limit window Store.empty
          times).1 : ℤ) ≤ 2 * limit) ∧
        ((allowedCount (runTrace LeakyBucket.check key limit window Store.empty
          times).1 : ℤ) ≤ 2 * limit) := by
  intro times key limit window a hlim hwin ha hp hspan
  have hspanc : ∀ t ∈ times, a ≤ t ∧ t ≤ a + window :=
    fun t ht => ⟨(hspan t ht).1, le_of_lt (hspan t ht).2⟩
  have hwr : window * ((limit : ℚ) / window) = (limit : ℚ) := by
    field_simp
  refine ⟨?_, ?_, ?_, ?_, ?_⟩
  · have h1 := swl_span_count times Store.empty key limit window a [] hwin hspan
      (Or.inl ⟨rfl, rfl, rfl⟩) (fun x hx => absurd hx (List.not_mem_nil x))
    simp only [List.length_nil, Nat.cast_zero, add_zero] at h1
    omega
  · have h2 := fw_span_count_two times Store.empty key limit window a
      (ratTrunc (a / window)) (ratTrunc (a / window) + 1) hlim hspan
      (fun t ht => slot_mem hwin ha (hspan t ht).1 (hspan t ht).2)
      (Or.inl rfl) (Or.inl rfl)
    have hphi0 : ∀ σ : ℤ, fwPhi Store.empty key limit σ = 0 := fun σ => by
      simp [fwPhi, fwCount, Store.empty]
      omega
    rw [hphi0, hphi0] at h2
    omega
  · intro hone
    have h3 := fw_slot_count times Store.empty key limit window a
      (ratTrunc (a / window)) hlim hspan hone (Or.inl rfl)
    have hphi0 : ∀ σ : ℤ, fwPhi Store.empty key limit σ = 0 := fun σ => by
      simp [fwPhi, fwCount, Store.empty]
      omega
    rw [hphi0] at h3
    omega
  · have h4 := tb_span_count times Store.empty key limit window a hlim hwin hspanc hp
      (Or.inl ⟨rfl, rfl⟩)
    have hbud : tbBudget Store.empty key limit window a =
        (limit : ℚ) + window * ((limit : ℚ) / window) := by
      unfold tbBudget Store.empty
      rfl
    rw [hbud, hwr] at h4
    have : (allowedCount (runTrace TokenBucket.check key limit window Store.empty
        times).1 : ℚ) ≤ ((2 * limit : ℤ) : ℚ) := by
      push_cast
      linarith
    exact_mod_cast this
  · have h5 := lb_span_count times Store.empty key limit window a hlim hwin hspanc hp
      (Or.inl ⟨rfl, rfl⟩)
    have hbud : lbBudget Store.empty key limit window a = 2 * limit := by
      unfold lbBudget Store.empty
      rfl
    rw [hbud] at h5
    exact h5

/-- Witness for C1 (amended): three calls at `0, 0, 1` with `limit = 2`,
`window = 2`, span `[0, 2)`; the sliding-window-log trace admits at most 2. -/
theorem c1_amended_span_bounds_witness :
    ((1 : ℤ) ≤ 2 ∧ (0 : ℚ) < 2 ∧ (0 : ℚ) ≤ 0 ∧
        ([0, 0, 1] : List ℚ).Pairwise (· ≤ ·) ∧
        (∀ t ∈ ([0, 0, 1] : List ℚ), (0 : ℚ) ≤ t ∧ t < 0 + 2)) ∧
      (allowedCount (runTrace SlidingWindowLog.check "k" 2 2 Store.empty
        [0, 0, 1]).1 : ℤ) ≤ 2 := by
  have hp : ([0, 0, 1] : List ℚ).Pairwise (· ≤ ·) := by
    simp [List.pairwise_cons]
  have hm : ∀ t ∈ ([0, 0, 1] : List ℚ), (0 : ℚ) ≤ t ∧ t < 0 + 2 := by
    simp
  exact ⟨⟨by decide, by with_unfolding_all decide, le_refl 0, hp, hm⟩,
    (c1_amended_span_bounds [0, 0, 1] "k" 2 2 0 (by decide)
      (by with_unfolding_all decide) (le_refl 0) hp hm).1⟩

end LivePulse
